import Mathlib

/-!
Verification development for the Kinyarwanda–English auto-captioning pipeline.

The Python sources are shallowly embedded as follows:

* Python `float` arithmetic is modelled by `ℚ` (exact rational arithmetic);
  the claims under study are about pacing arithmetic, timestamp rendering and
  window geometry, where the rational model is the intended semantics.
* Python strings are Lean `String`s; string primitives (`str.split`,
  `str.strip`, `str.lower`, `str.join`, f-string zero padding) are re-implemented
  character-by-character on `List Char` with Python's semantics (ASCII fragment:
  the inputs manipulated by the claims are ASCII).
* Fallible Python code (exceptions) is modelled with `Option`/`Except`:
  a raised exception that the caller does not catch becomes `none` / `.error`.
* The speech model and the translation model are external collaborators; the
  per-chunk translation call of `translate_chunks` is a function parameter
  `tl : String → String`.
-/

namespace KinyCap

/-- Python's `\s` / whitespace set used by `str.strip`, `str.split()` and the
`re` separators in the sources (ASCII fragment of Python's definition). -/
def pyIsSpace (c : Char) : Bool :=
  c == ' ' || c == '\t' || c == '\n' || c == '\r' || c == '\x0b' || c == '\x0c'

/-- Left strip, as in Python `str.lstrip()`. -/
def pyStripL (cs : List Char) : List Char := cs.dropWhile pyIsSpace

/-- Right strip, as in Python `str.rstrip()`. -/
def pyStripR (cs : List Char) : List Char := (cs.reverse.dropWhile pyIsSpace).reverse

/-- Both-ends strip on character lists, as in Python `str.strip()`. -/
def pyStripChars (cs : List Char) : List Char := pyStripR (pyStripL cs)

/-- Python `str.strip()`. -/
def pyStrip (s : String) : String := String.mk (pyStripChars s.data)

/-- A line consisting only of whitespace (this includes the empty line).
Used to model the `re.split(r'\n\s*\n', …)` block separators of the subtitle
parser: inside stripped content, every separator match is exactly a run of
newlines around whitespace-only lines, so blocks are the maximal runs of
non-whitespace-only lines. -/
def isWsOnly (cs : List Char) : Bool := cs.all pyIsSpace

/-- Split a list at every element satisfying `p` (the separators are dropped;
empty segments between consecutive separators are kept), like Python
`str.split(sep)` does for a single-character separator. -/
def splitBy {α : Type} (p : α → Bool) : List α → List (List α)
  | [] => [[]]
  | x :: xs =>
    match splitBy p xs with
    | [] => [[]]
    | g :: gs => if p x then [] :: g :: gs else (x :: g) :: gs

/-- Python `str.split(sep)` for a one-character separator `sep`. -/
def splitOnChar (sep : Char) (cs : List Char) : List (List Char) :=
  splitBy (fun c => c == sep) cs

/-- Python `sep.join(…)` for a one-character separator. -/
def joinWith (sep : Char) : List (List Char) → List Char
  | [] => []
  | [l] => l
  | l :: ls => l ++ sep :: joinWith sep ls

/-- Python `str.split()` (no argument): split on whitespace runs, dropping
empty words. -/
def wordsChars (cs : List Char) : List (List Char) :=
  (splitBy pyIsSpace cs).filter (fun w => !w.isEmpty)

/-- Word list of a string, Python `text.split()`. -/
def pyWords (s : String) : List String := (wordsChars s.data).map String.mk

/-- Python `" ".join(words)`. -/
def unwords (ws : List String) : String :=
  String.mk (joinWith ' ' (ws.map String.data))

/-- Python `str.lower()` (ASCII fragment). -/
def pyLower (s : String) : String := String.mk (s.data.map Char.toLower)

/-- The character for a decimal digit `d < 10`. -/
def digitChar (d : ℕ) : Char := Char.ofNat (48 + d)

/-- Decimal digits of `n`, least significant first (`fuel` only bounds the
recursion so that it is structural; any `fuel > n` gives the digits). -/
def natCharsGo (fuel n : ℕ) : List Char :=
  match fuel with
  | 0 => []
  | f + 1 => if n < 10 then [digitChar n] else digitChar (n % 10) :: natCharsGo f (n / 10)

/-- Decimal rendering of `n`, as Python `str(n)` / `f"{n}"`. -/
def natChars (n : ℕ) : List Char := (natCharsGo (n + 1) n).reverse

/-- Python zero-padded rendering `f"{n:0wd}"`. -/
def padZero (w n : ℕ) : List Char :=
  List.replicate (w - (natChars n).length) '0' ++ natChars n

/-- The value of a decimal digit string (the accumulator loop inside number
parsing). -/
def digitsVal (ds : List Char) : ℕ :=
  ds.foldl (fun a c => a * 10 + (c.toNat - 48)) 0

/-- Round to the nearest integer, ties to even: the rounding CPython's
`timedelta(seconds=s)` applies when normalising a fractional `seconds`
argument to whole microseconds. -/
def roundHalfEven (q : ℚ) : ℤ :=
  let n := ⌊q⌋
  let f := q - n
  if f < 1/2 then n
  else if 1/2 < f then n + 1
  else if n % 2 = 0 then n else n + 1

/-- The `(hours, minutes, seconds, milliseconds)` fields extracted by
`format_timestamp` via `timedelta` and `divmod`.

`td = timedelta(seconds=seconds)` normalises the argument into
days/seconds/microseconds: the total microsecond count is the half-even
rounding of `seconds * 10^6`, `td.seconds` is the whole-second part reduced
modulo 86400 (whole days are carried into `td.days` and ignored by
`format_timestamp`), and `td.microseconds` is the sub-second microsecond
part. `divmod` on the non-negative `td.seconds` then extracts hours, minutes,
seconds; `td.microseconds // 1000` gives milliseconds. Python's floor
divmod coincides with Lean's Euclidean `/`/`%` on `ℤ` because every divisor
here is positive. -/
def tsFields (seconds : ℚ) : ℤ × ℤ × ℤ × ℤ :=
  let us : ℤ := roundHalfEven (seconds * 1000000)
  let tdSeconds : ℤ := (us / 1000000) % 86400
  let tdMicros : ℤ := us % 1000000
  (tdSeconds / 3600, tdSeconds % 3600 / 60, tdSeconds % 3600 % 60, tdMicros / 1000)

/-- `format_timestamp` from `src/captioning.py`: zero-padded
`HH:MM:SS,mmm` for SRT, `HH:MM:SS.mmm` for WebVTT, `HH:MM:SS` otherwise. -/
def format_timestamp (seconds : ℚ) (format_type : String) : String :=
  let f := tsFields seconds
  let core : List Char :=
    padZero 2 f.1.toNat ++ ':' :: padZero 2 f.2.1.toNat ++ ':' :: padZero 2 f.2.2.1.toNat
  if format_type = "srt" then String.mk (core ++ ',' :: padZero 3 f.2.2.2.toNat)
  else if format_type = "vtt" then String.mk (core ++ '.' :: padZero 3 f.2.2.2.toNat)
  else String.mk core

/-- An `AudioChunk` record `{start_time, end_time, text}` as produced by the
transcription step and consumed by stitching and captioning. -/
structure Chunk where
  start_time : ℚ
  end_time : ℚ
  text : String
deriving DecidableEq

/-- A `TranslatedChunk` record as produced by `translate_chunks`. -/
structure TransChunk where
  start_time : ℚ
  end_time : ℚ
  original_text : String
  translated_text : String
deriving DecidableEq

/-- A timed caption cue: SRT sequence number `idx` (unused by the WebVTT
writer, where it is set to 0), start/end time in seconds, and text. -/
structure Cue where
  idx : ℕ
  start_time : ℚ
  end_time : ℚ
  text : String
deriving DecidableEq

/-- A parsed subtitle entry `{start, end, text}` as produced by `parse_srt` /
`parse_vtt` (the Python dict key `end` is spelled `stop` here). -/
structure SubEntry where
  start : ℚ
  stop : ℚ
  text : String
deriving DecidableEq

/-- `translate_chunks` from `src/translation.py`: chunks whose text is
whitespace-only are skipped; otherwise the external translation model `tl`
is invoked on the chunk text. -/
def translate_chunks (tl : String → String) : List Chunk → List TransChunk
  | [] => []
  | ch :: rest =>
    if pyStrip ch.text = "" then translate_chunks tl rest
    else ⟨ch.start_time, ch.end_time, ch.text, tl ch.text⟩ :: translate_chunks tl rest

/-- One step of the sentence splitter `re.split(r'(?<=[.!?])\s+', text)`:
a whitespace run directly after `.`, `!` or `?` is a separator (the
punctuation mark stays with the left sentence, the whole whitespace run is
consumed). `acc` holds the current sentence reversed. -/
def sentSplitGo (fuel : ℕ) (acc : List Char) : List Char → List (List Char)
  | [] => [acc.reverse]
  | c :: rest =>
    match fuel with
    | 0 => [(c :: acc).reverse ++ rest.reverse]
    | f + 1 =>
      if (c == '.' || c == '!' || c == '?') &&
          (match rest with | r :: _ => pyIsSpace r | [] => false) then
        (c :: acc).reverse :: sentSplitGo f [] (rest.dropWhile pyIsSpace)
      else
        sentSplitGo f (c :: acc) rest

/-- Sentence list of a text, `re.split(r'(?<=[.!?])\s+', translation)`.
Each step of `sentSplitGo` consumes at least one character, so fuel equal to
the character count makes the fuel bound unreachable. -/
def pySentences (s : String) : List String :=
  (sentSplitGo s.data.length [] s.data).map String.mk

/-- The `segments` built for a long sentence in `generate_srt_captions`:
`" ".join(words[j:j+10])` for `j = 0, 10, 20, …` (`fuel` only bounds the
recursion so that it is structural; each step drops 10 words, so fuel equal
to the word count is enough). -/
def segmentsGo (fuel : ℕ) (ws : List String) : List String :=
  match fuel with
  | 0 => []
  | f + 1 => if ws.isEmpty then [] else unwords (ws.take 10) :: segmentsGo f (ws.drop 10)

/-- The inner segment loop of the translation-only SRT path: each segment gets
an equal share `d` of the sentence's duration and the running clock and cue
counter advance per segment. Returns the cues together with the final clock
and counter. -/
def segCuesGo (d : ℚ) (t : ℚ) (k : ℕ) : List String → (List Cue × ℚ × ℕ)
  | [] => ([], t, k)
  | seg :: rest =>
    let r := segCuesGo d (t + d) (k + 1) rest
    (Cue.mk k t (t + d) seg :: r.1, r.2.1, r.2.2)

/-- The sentence loop of the translation-only SRT path (`generate_srt_captions`,
`elif translation:` branch), producing cues instead of the rendered lines:
whitespace-only sentences are skipped, a sentence's duration is
`max(len(sentence)/chars_per_second, 1.5)`, sentences of more than 12 words
are split into ~10-word segments sharing the duration equally. -/
def pacingGo (cps : ℚ) : ℚ → ℕ → List String → List Cue
  | _, _, [] => []
  | t, k, s :: rest =>
    if pyStrip s = "" then pacingGo cps t k rest
    else
      let dur : ℚ := max ((s.length : ℚ) / cps) (3/2)
      let ws := pyWords s
      if 12 < ws.length then
        let segs := segmentsGo ws.length ws
        let r := segCuesGo (dur / (segs.length : ℚ)) t k segs
        r.1 ++ pacingGo cps r.2.1 r.2.2 rest
      else
        Cue.mk k t (t + dur) s :: pacingGo cps (t + dur) (k + 1) rest

/-- The cue sequence of the translation-only SRT pacing path: the global
`chars_per_second` rate is `total_chars / max(total_chars/30, len(sentences))`
and the cue clock starts at 0 with sequence numbers from 1. -/
def srtPacingCues (translation : String) : List Cue :=
  let sentences := pySentences translation
  let totalChars : ℚ := ((sentences.map String.length).sum : ℕ)
  let cps : ℚ := totalChars / max (totalChars / 30) (sentences.length : ℚ)
  pacingGo cps 0 1 sentences

/-- The rendered timestamp line `f"{start_time} --> {end_time}"`. -/
def tsLine (fmt : String) (a b : ℚ) : List Char :=
  (format_timestamp a fmt).data ++ ' ' :: '-' :: '-' :: '>' :: ' ' ::
    (format_timestamp b fmt).data

/-- The four SRT content lines of one pacing cue: sequence number, timestamp
line, text, and the blank separator line. -/
def srtCueLines (c : Cue) : List (List Char) :=
  [natChars c.idx, tsLine "srt" c.start_time c.end_time, c.text.data, []]

/-- Concatenation of the per-element line lists (the successive `append`s of
the Python loops). -/
def catMap {α β : Type} (f : α → List β) : List α → List β
  | [] => []
  | x :: xs => f x ++ catMap f xs

/-- The dual-source SRT entry loop (`if transcription and translation:`):
chunks missing either text are skipped but still consume an `enumerate`
index; kept chunks render five lines. -/
def srtDualEntries (i : ℕ) : List TransChunk → List (List Char)
  | [] => []
  | ch :: rest =>
    (if ch.original_text = "" ∨ ch.translated_text = "" then []
     else [natChars i, tsLine "srt" ch.start_time ch.end_time,
           ch.original_text.data, ch.translated_text.data, []]) ++
    srtDualEntries (i + 1) rest

/-- The transcription-only SRT entry loop (final `else` branch): chunks with
whitespace-only text are skipped but still consume an `enumerate` index. -/
def srtChunkEntries (i : ℕ) : List Chunk → List (List Char)
  | [] => []
  | ch :: rest =>
    (if pyStrip ch.text = "" then []
     else [natChars i, tsLine "srt" ch.start_time ch.end_time, ch.text.data, []]) ++
    srtChunkEntries (i + 1) rest

/-- `generate_srt_captions` from `src/captioning.py` (`tl` is the external
translation model used by `translate_chunks` on the dual path). -/
def generate_srt_captions (transcription translation : String)
    (tl : String → String) (chunks : List Chunk) : String :=
  if transcription ≠ "" ∧ translation ≠ "" then
    String.mk (joinWith '\n' (srtDualEntries 1 (translate_chunks tl chunks)))
  else if translation ≠ "" then
    String.mk (joinWith '\n' (catMap srtCueLines (srtPacingCues translation)))
  else
    String.mk (joinWith '\n' (srtChunkEntries 1 chunks))

/-- The word loop of the translation-only WebVTT path (`generate_vtt_captions`,
`elif translation:` branch), producing cues: a fixed 20 chars/second rate,
words are greedily grouped until a group would exceed 5 seconds, and the
trailing group is flushed if non-empty. (No 1.5 s floor and no sentence
splitting exist on this path.) -/
def vttPacingGo (acc : List String) (curDur : ℚ) (startT : ℚ) : List String → List Cue
  | [] => if acc.isEmpty then [] else [Cue.mk 0 startT (startT + curDur) (unwords acc)]
  | w :: rest =>
    let wd : ℚ := (w.length : ℚ) / 20
    if 5 < curDur + wd then
      Cue.mk 0 startT (startT + curDur) (unwords acc) ::
        vttPacingGo [w] wd (startT + curDur) rest
    else
      vttPacingGo (acc ++ [w]) (curDur + wd) startT rest

/-- The cue sequence of the translation-only WebVTT path. -/
def vttTranslationCues (translation : String) : List Cue :=
  vttPacingGo [] 0 0 (pyWords translation)

/-- The three WebVTT content lines of one pacing cue (no sequence number). -/
def vttCueLines (c : Cue) : List (List Char) :=
  [tsLine "vtt" c.start_time c.end_time, c.text.data, []]

/-- The dual-source WebVTT entry loop (no skip check of its own; empty-text
chunks were already removed by `translate_chunks`). -/
def vttDualEntries : List TransChunk → List (List Char)
  | [] => []
  | ch :: rest =>
    [tsLine "vtt" ch.start_time ch.end_time, ch.original_text.data,
     ch.translated_text.data, []] ++ vttDualEntries rest

/-- The transcription-only WebVTT entry loop (no skip check). -/
def vttChunkEntries : List Chunk → List (List Char)
  | [] => []
  | ch :: rest =>
    [tsLine "vtt" ch.start_time ch.end_time, ch.text.data, []] ++ vttChunkEntries rest

/-- `generate_vtt_captions` from `src/captioning.py`. -/
def generate_vtt_captions (transcription translation : String)
    (tl : String → String) (chunks : List Chunk) : String :=
  let body : List (List Char) :=
    if transcription ≠ "" ∧ translation ≠ "" then
      vttDualEntries (translate_chunks tl chunks)
    else if translation ≠ "" then
      catMap vttCueLines (vttTranslationCues translation)
    else
      vttChunkEntries chunks
  String.mk (joinWith '\n' (['W','E','B','V','T','T'] :: [] :: body))

/-- `generate_captions` from `src/captioning.py`: the empty-chunks sentinel is
checked first; then the format dispatch, with a `ValueError` for unsupported
formats modelled as `Except.error`. -/
def generate_captions (transcription translation : String) (tl : String → String)
    (chunks : List Chunk) (format_type : String) : Except String String :=
  if chunks = [] then .ok "No caption data available"
  else if format_type = "srt" then
    .ok (generate_srt_captions transcription translation tl chunks)
  else if format_type = "vtt" then
    .ok (generate_vtt_captions transcription translation tl chunks)
  else .error ("Unsupported caption format: " ++ format_type)

/-! ### Audio chunking (`src/transcription.py`) -/

/-- The audio is loaded at a fixed 16 kHz sample rate (`librosa.load(…, sr=16000)`). -/
def sampleRate : ℕ := 16000

/-- The start offsets visited by `range(0, L, step)` for a positive `step`:
the multiples of `step` below `L`. -/
def windowStarts (L step : ℕ) : List ℕ :=
  (List.range ((L + step - 1) / step)).map (· * step)

/-- All candidate windows `(i, min(i + chunk_size, L))` of the chunk loop of
`transcribe_audio_file`, for chunk duration `c` and overlap `o` in seconds
with `o < c` (sample counts `c*16000` and `o*16000`, step their difference). -/
def allWindows (L c o : ℕ) : List (ℕ × ℕ) :=
  (windowStarts L ((c - o) * sampleRate)).map (fun i => (i, min (i + c * sampleRate) L))

/-- The windows that survive the `len(chunk) < sr` skip: candidate windows of
at least one second (16000 samples). -/
def keptWindows (L c o : ℕ) : List (ℕ × ℕ) :=
  (allWindows L c o).filter (fun w => decide (sampleRate ≤ w.2 - w.1))

/-- The window enumeration of `transcribe_audio_file` including the behaviour
of `range(0, len(audio), chunk_size - overlap)` for a non-positive step:
a zero step makes `range` raise `ValueError` (modelled as `.error`), a
negative step makes `range` empty, so the loop body never runs and no chunk
is produced — without any error. -/
def audioWindows (L c o : ℕ) : Except String (List (ℕ × ℕ)) :=
  let step : ℤ := (c : ℤ) * sampleRate - (o : ℤ) * sampleRate
  if step = 0 then .error "range() arg 3 must not be zero"
  else if step < 0 then .ok []
  else .ok (keptWindows L c o)

/-! ### Overlap stitching (`src/transcription.py`, post-processing loop) -/

/-- Python `words[-n:]` for `n` possibly exceeding the length (and the whole
list for `n = 0`). -/
def pyTakeLast {α : Type} (n : ℕ) (l : List α) : List α :=
  if n = 0 then l else l.drop (l.length - n)

/-- The phrase comparison of the stitcher:
`" ".join(prev_words[-n:]).lower() == " ".join(curr_words[:n]).lower()`. -/
def phrasesMatch (p c : List String) (n : ℕ) : Bool :=
  pyLower (unwords (pyTakeLast n p)) == pyLower (unwords (c.take n))

/-- The inner `for j in range(min(10, len(prev_words)))` scan: for each `j`
the candidate overlap size is `min(len(prev_words) - j, len(curr_words))`;
the loop breaks at the first `j` whose candidate is at least 2 words and
whose phrases match, returning that candidate size. -/
def findOverlapGo (p c : List String) : List ℕ → Option ℕ
  | [] => none
  | j :: js =>
    let n := min (p.length - j) c.length
    if 2 ≤ n ∧ phrasesMatch p c n then some n else findOverlapGo p c js

/-- The overlap size removed from the current chunk, if any. -/
def findOverlap (p c : List String) : Option ℕ :=
  findOverlapGo p c (List.range (min 10 p.length))

/-- One iteration of the stitching loop over `enumerate(chunks)`: chunks with
empty text are dropped; a chunk with a predecessor in `processed_chunks`
(equivalently, at index `> 0` with a non-empty accumulator) has the matched
overlap stripped from the front of its words; chunks whose text becomes
empty are dropped. -/
def stitchStep (acc : List Chunk) (ipair : ℕ × Chunk) : List Chunk :=
  let i := ipair.1
  let ch := ipair.2
  if ch.text = "" then acc
  else
    let newText :=
      match (if 0 < i then acc.getLast? else none) with
      | some prev =>
        match findOverlap (pyWords prev.text) (pyWords ch.text) with
        | some n => unwords ((pyWords ch.text).drop n)
        | none => ch.text
      | none => ch.text
    if newText = "" then acc else acc ++ [{ ch with text := newText }]

/-- The chunk post-processing of `transcribe_audio_file` (lines 99–132):
the list of surviving, stitched chunks. -/
def stitchChunks (chunks : List Chunk) : List Chunk :=
  chunks.enum.foldl stitchStep []

/-! ### Subtitle parsing (`src/utils.py`) -/

/-- A restricted model of Python's `float()` builtin, covering plain decimal
literals: surrounding whitespace is stripped, an optional sign is followed by
digits with at most one decimal point (at least one digit in total); anything
else — including the exponent/inf/nan forms never produced by timestamp
fields — is a `ValueError`, modelled as `none`. -/
def pyFloat (cs : List Char) : Option ℚ :=
  let t := pyStripChars cs
  let sgn : ℚ := if t.head? = some '-' then -1 else 1
  let body := if t.head? = some '-' ∨ t.head? = some '+' then t.tail else t
  let ip := body.takeWhile Char.isDigit
  match body.drop ip.length with
  | [] => if ip.isEmpty then none else some (sgn * (digitsVal ip : ℚ))
  | '.' :: fp =>
    if fp.all Char.isDigit ∧ (ip ≠ [] ∨ fp ≠ []) then
      some (sgn * ((digitsVal ip : ℚ) + (digitsVal fp : ℚ) / (10 : ℚ) ^ fp.length))
    else none
  | _ => none

/-- `time_to_seconds` from `src/utils.py` on a character list: the string is
split on `:` and destructured as `h, m, s` (any other arity raises, i.e.
`none`); `s` is split on `,` when it contains one (SRT milliseconds),
otherwise parsed directly (the `.` and plain branches of the source are the
same expression). -/
def timeToSecondsChars (cs : List Char) : Option ℚ :=
  match splitOnChar ':' cs with
  | [h, m, s] => do
    let hv ← pyFloat h
    let mv ← pyFloat m
    let base := hv * 3600 + mv * 60
    if s.contains ',' then
      match splitOnChar ',' s with
      | a :: b :: _ => do
        let av ← pyFloat a
        let bv ← pyFloat b
        pure (base + av + bv / 1000)
      | _ => none
    else do
      let sv ← pyFloat s
      pure (base + sv)
  | _ => none

/-- `time_to_seconds` from `src/utils.py`. -/
def time_to_seconds (s : String) : Option ℚ := timeToSecondsChars s.data

/-- The separator of the timestamp line, `' --> '`. -/
def arrowSep : List Char := [' ', '-', '-', '>', ' ']

/-- Python `line.split(' --> ')`: scan for non-overlapping occurrences of the
five-character separator, left to right. `acc` holds the current field
reversed (`fuel` only bounds the recursion so that it is structural; each
step consumes at least one character). -/
def splitArrowGo (fuel : ℕ) (acc : List Char) : List Char → List (List Char)
  | [] => [acc.reverse]
  | c :: cs =>
    match fuel with
    | 0 => [acc.reverse ++ c :: cs]
    | f + 1 =>
      if arrowSep.isPrefixOf (c :: cs) then
        acc.reverse :: splitArrowGo f [] ((c :: cs).drop 5)
      else
        splitArrowGo f (c :: acc) cs

/-- Python `line.split(' --> ')`. -/
def splitArrow (cs : List Char) : List (List Char) := splitArrowGo cs.length [] cs

/-- Python `' --> ' in line`. -/
def hasArrow (cs : List Char) : Bool := 2 ≤ (splitArrow cs).length

/-- The line list of one block: `block.strip().split('\n')`. -/
def blockLines (g : List (List Char)) : List (List Char) :=
  splitOnChar '\n' (pyStripChars (joinWith '\n' g))

/-- One SRT block of `parse_srt`: blocks of fewer than 3 lines are skipped
(`some []`), the second line must split into exactly two timestamps on
`' --> '` or the block is skipped, and a timestamp that `time_to_seconds`
cannot destructure raises (`none`); the remaining lines are the text. -/
def parseBlockSrt (g : List (List Char)) : Option (List SubEntry) :=
  match blockLines g with
  | _l0 :: l1 :: l2 :: rest =>
    match splitArrow l1 with
    | [t1, t2] => do
      let a ← timeToSecondsChars t1
      let b ← timeToSecondsChars t2
      pure [⟨a, b, String.mk (joinWith '\n' (l2 :: rest))⟩]
    | _ => some []
  | _ => some []

/-- `mapM` over `Option` written as the source's `for` loop: results are
accumulated in order and the first raised exception aborts the whole parse. -/
def optMapM {α β : Type} (f : α → Option β) : List α → Option (List β)
  | [] => some []
  | x :: xs =>
    match f x with
    | none => none
    | some y => (optMapM f xs).map (y :: ·)

/-- Concatenation of a list of lists (the successive `append`s / `extend`s). -/
def flattenL {α : Type} : List (List α) → List α
  | [] => []
  | l :: ls => l ++ flattenL ls

/-- The block decomposition `re.split(r'\n\s*\n', content.strip())`: inside
stripped content every separator match is a maximal run of newlines and
whitespace-only lines, so the blocks are the maximal groups of lines that are
not whitespace-only (empty groups between adjacent separators disappear into
the single greedy regex match). -/
def contentBlocks (cs : List Char) : List (List (List Char)) :=
  (splitBy isWsOnly (splitOnChar '\n' (pyStripChars cs))).filter (fun g => !g.isEmpty)

/-- `parse_srt` from `src/utils.py`. -/
def parse_srt (content : String) : Option (List SubEntry) :=
  (optMapM parseBlockSrt (contentBlocks content.data)).map flattenL

/-- `re.sub(r'^WEBVTT\s*\n', '', content)`: when the content starts with
`WEBVTT`, the greedy `\s*` backtracks so that the match ends at the last
newline of the whitespace run following the header; without such a newline
there is no match and the content is unchanged. -/
def stripVttHeader (cs : List Char) : List Char :=
  if ['W','E','B','V','T','T'].isPrefixOf cs then
    let r := cs.drop 6
    let w := (r.takeWhile pyIsSpace).reverse.dropWhile (fun c => !(c == '\n'))
    if w.isEmpty then cs else r.drop w.length
  else cs

/-- The search for the first line of a block containing `' --> '`
(`for i, line in enumerate(lines): if ' --> ' in line: …`), returning that
line and the lines after it. -/
def findArrowLine : List (List Char) → Option (List Char × List (List Char))
  | [] => none
  | l :: rest => if hasArrow l then some (l, rest) else findArrowLine rest

/-- One WebVTT block of `parse_vtt`: blocks of fewer than 2 lines, without a
timestamp line, or whose timestamp line does not split into exactly two
fields are skipped (`some []`); unparsable timestamp fields raise (`none`). -/
def parseBlockVtt (g : List (List Char)) : Option (List SubEntry) :=
  let ls := blockLines g
  if ls.length < 2 then some []
  else
    match findArrowLine ls with
    | none => some []
    | some (tline, rest) =>
      match splitArrow tline with
      | [t1, t2] => do
        let a ← timeToSecondsChars t1
        let b ← timeToSecondsChars t2
        pure [⟨a, b, String.mk (joinWith '\n' rest)⟩]
      | _ => some []

/-- `parse_vtt` from `src/utils.py`. -/
def parse_vtt (content : String) : Option (List SubEntry) :=
  (optMapM parseBlockVtt (contentBlocks (stripVttHeader content.data))).map flattenL

/-- Cue text that survives an SRT serialise/parse round trip verbatim:
non-empty, without newlines (a newline would add block lines) and not ending
in whitespace (the block-level and content-level `strip()` would drop it).
Leading whitespace and interior non-newline whitespace are harmless. -/
def goodTextB (t : String) : Bool :=
  !t.data.isEmpty &&
  t.data.all (fun c => !(c == '\n')) &&
  (match t.data.getLast? with
   | some c => !pyIsSpace c
   | none => false)

/-- A time value representable to the millisecond inside one day: exactly
what an SRT timestamp field can carry. -/
def msRep (q : ℚ) : Prop := ∃ k : ℕ, k < 86400000 ∧ q = (k : ℚ) / 1000

/-- A cue an SRT serialise/parse round trip preserves verbatim: whole-ms
times inside one day and round-trippable text. -/
def goodCue (ch : Chunk) : Prop :=
  msRep ch.start_time ∧ msRep ch.end_time ∧ goodTextB ch.text = true

/-- Proof-side description of the SRT content lines of the
transcription-only path once the trailing blank line is stripped: three
lines per chunk with single blank separator lines. -/
def srtCoreLines (i : ℕ) : List Chunk → List (List Char)
  | [] => []
  | [ch] => [natChars i, tsLine "srt" ch.start_time ch.end_time, ch.text.data]
  | ch :: rest =>
    [natChars i, tsLine "srt" ch.start_time ch.end_time, ch.text.data] ++
      [[]] ++ srtCoreLines (i + 1) rest

/-- Proof-side description of the parsed block list of the rendered SRT:
one three-line group per chunk. -/
def srtGroups (i : ℕ) : List Chunk → List (List (List Char))
  | [] => []
  | ch :: rest =>
    [natChars i, tsLine "srt" ch.start_time ch.end_time, ch.text.data] ::
      srtGroups (i + 1) rest

/-!
## Theorems

Claim theorems are named `claims_Cn…`; everything else is a shared helper.
-/

/-- C9: with an empty (or absent, i.e. falsy) chunk list, `generate_captions`
returns the literal sentinel `"No caption data available"` for every
transcription, translation, translator and format string — the empty-chunks
check precedes the format dispatch, so even the translation-only pacing path
(which never reads the chunks) and the unsupported-format error are
unreachable. -/
theorem claims_C9_empty_chunks_sentinel (transcription translation : String)
    (tl : String → String) (format_type : String) :
    generate_captions transcription translation tl [] format_type =
      Except.ok "No caption data available" := by
  simp [generate_captions]

/-- C5 counterexample: with an empty chunk list, an unsupported format string
`"xml"` does not raise — `generate_captions` returns the sentinel instead,
because the empty-chunks check precedes the format dispatch. -/
theorem claims_C5_counterexample :
    generate_captions "t" "u" (fun _ => "") [] "xml" =
        Except.ok "No caption data available" ∧
      "xml" ≠ "srt" ∧ "xml" ≠ "vtt" :=
  ⟨rfl, by decide, by decide⟩

/-- C5 (amended): for every NON-EMPTY chunk list, a format string other than
`"srt"` and `"vtt"` always makes `generate_captions` fail with the
`Unsupported caption format` configuration error. -/
theorem claims_C5_unsupported_format (transcription translation : String)
    (tl : String → String) (chunks : List Chunk) (format_type : String)
    (hne : chunks ≠ []) (hs : format_type ≠ "srt") (hv : format_type ≠ "vtt") :
    generate_captions transcription translation tl chunks format_type =
      Except.error ("Unsupported caption format: " ++ format_type) := by
  simp [generate_captions, hne, hs, hv]

/-- C5 witness: the amended theorem applied at a concrete non-empty chunk
list and format `"xml"`. -/
theorem claims_C5_witness :
    generate_captions "a" "b" (fun _ => "") [⟨0, 1, "x"⟩] "xml" =
      Except.error ("Unsupported caption format: " ++ "xml") :=
  claims_C5_unsupported_format "a" "b" (fun _ => "") [⟨0, 1, "x"⟩] "xml"
    (by decide) (by decide) (by decide)

/-- C2 counterexample: invoked with `chunk_size_seconds = 3` not exceeding
`overlap_seconds = 5` on a 10-second waveform, the chunker does not reject
the configuration: the negative step makes `range` empty, the function
silently produces no chunks and no error. -/
theorem claims_C2_counterexample :
    audioWindows 160000 3 5 = Except.ok [] ∧ (3 : ℕ) ≤ 5 :=
  ⟨rfl, by decide⟩

/-- C2 (amended): the configuration `chunk_size_seconds ≤ overlap_seconds` is
not validated. When the two are equal, `range(0, len(audio), 0)` raises
`ValueError` before any chunk is produced; when the chunk duration is
strictly smaller, no exception is raised at all and the chunker returns an
empty chunk list. -/
theorem claims_C2_nonpositive_step (L c o : ℕ) :
    (c = o → audioWindows L c o = Except.error "range() arg 3 must not be zero") ∧
    (c < o → audioWindows L c o = Except.ok []) := by
  constructor
  · intro h
    subst h
    simp [audioWindows]
  · intro h
    have h0 : (c : ℤ) * sampleRate - (o : ℤ) * sampleRate < 0 := by
      simp [sampleRate]
      omega
    rw [audioWindows]
    simp only [if_neg (by omega : ¬((c : ℤ) * sampleRate - (o : ℤ) * sampleRate = 0)),
      if_pos h0]

/-- C2 witness: the amended theorem applied at equal and at inverted
durations. -/
theorem claims_C2_witness :
    audioWindows 16000 2 2 = Except.error "range() arg 3 must not be zero" ∧
      audioWindows 16000 2 3 = Except.ok [] :=
  ⟨(claims_C2_nonpositive_step 16000 2 2).1 rfl,
   (claims_C2_nonpositive_step 16000 2 3).2 (by decide)⟩

/-- Half-even rounding commutes with adding an even integer. -/
theorem roundHalfEven_add_even (q : ℚ) (n : ℤ) (hn : n % 2 = 0) :
    roundHalfEven (q + (n : ℚ)) = roundHalfEven q + n := by
  simp only [roundHalfEven]
  rw [Int.floor_add_int q n]
  have hf : q + (n : ℚ) - ((⌊q⌋ + n : ℤ) : ℚ) = q - (⌊q⌋ : ℚ) := by
    push_cast
    ring
  rw [hf]
  have hp : (⌊q⌋ + n) % 2 = ⌊q⌋ % 2 := by omega
  rw [hp]
  split_ifs <;> omega

/-- The timedelta fields are 24-hour periodic: whole days are discarded. -/
theorem tsFields_add_day (s : ℚ) : tsFields (s + 86400) = tsFields s := by
  have h1 : (s + 86400) * 1000000 = s * 1000000 + ((86400000000 : ℤ) : ℚ) := by
    push_cast
    ring
  simp only [tsFields, h1, roundHalfEven_add_even _ 86400000000 (by decide)]
  generalize roundHalfEven (s * 1000000) = us
  have e1 : (us + 86400000000) / 1000000 = us / 1000000 + 86400 := by omega
  have e2 : (us / 1000000 + 86400) % 86400 = us / 1000000 % 86400 := by omega
  have e3 : (us + 86400000000) % 1000000 = us % 1000000 := by omega
  rw [e1, e2, e3]

unseal Rat.mul Rat.add Rat.sub Rat.inv in
/-- C10: `format_timestamp` renders its argument modulo 24 hours — adding
86400 seconds leaves the rendered timestamp unchanged in every format, and
in particular 86400.0 seconds renders as `00:00:00,000` in SRT, so the
serialised timestamp is not injective across the 24-hour boundary. -/
theorem claims_C10_timestamp_wraps_mod_day :
    (∀ (s : ℚ) (format_type : String),
        format_timestamp (s + 86400) format_type = format_timestamp s format_type) ∧
      format_timestamp 86400 "srt" = "00:00:00,000" := by
  constructor
  · intro s format_type
    unfold format_timestamp
    rw [tsFields_add_day]
  · decide

unseal Rat.mul Rat.add Rat.sub Rat.inv in
/-- C1 counterexample: the 1.5 s dwell floor fails on both pacing paths.
In the SRT path, the 13-word sentence `"a a a a a a a a a a a a a."` is split
into two segments that share the sentence's floored 1.5 s duration, so each
cue lasts only 0.75 s. In the WebVTT translation path the heuristic is a
different one (20 chars/s, 5 s cap, no floor at all): `"Hi."` produces a
single 0.15 s cue. -/
theorem claims_C1_counterexample :
    ((srtPacingCues "a a a a a a a a a a a a a.").map
        (fun c => c.end_time - c.start_time) = [3/4, 3/4] ∧
      ¬ ((3 : ℚ)/2 ≤ 3/4)) ∧
    ((vttTranslationCues "Hi.").map (fun c => c.end_time - c.start_time) = [3/20] ∧
      ¬ ((3 : ℚ)/2 ≤ 3/20)) := by
  decide

/-- Every cue emitted by the SRT pacing loop for sentences of at most 12
words lasts at least 1.5 seconds, whatever the rate, clock and counter. -/
theorem pacingGo_floor (cps : ℚ) (sents : List String)
    (h : ∀ s ∈ sents, (pyWords s).length ≤ 12) :
    ∀ (t : ℚ) (k : ℕ), ∀ c ∈ pacingGo cps t k sents,
      3/2 ≤ c.end_time - c.start_time := by
  induction sents with
  | nil => intro t k c hc; simp [pacingGo] at hc
  | cons s rest ih =>
    intro t k c hc
    have hrest : ∀ x ∈ rest, (pyWords x).length ≤ 12 :=
      fun x hx => h x (List.mem_cons_of_mem s hx)
    rw [pacingGo] at hc
    by_cases hs : pyStrip s = ""
    · rw [if_pos hs] at hc
      exact ih hrest t k c hc
    · rw [if_neg hs] at hc
      have hw : ¬ 12 < (pyWords s).length := by
        have := h s (List.mem_cons_self s rest)
        omega
      rw [if_neg hw] at hc
      rcases List.mem_cons.mp hc with hc | hc
      · subst hc
        simp only [Cue.mk.injEq]
        have : (3 : ℚ)/2 ≤ max ((s.length : ℚ) / cps) (3/2) := le_max_right _ _
        linarith
      · exact ih hrest _ _ c hc

/-- C1 (amended): for the SRT pacing path, every caption cue satisfies
`end_time - start_time ≥ 1.5` seconds provided no sentence of the
translation exceeds 12 words. Longer sentences are indeed split into
~10-word sub-segments, but those segments share the sentence's (floored)
duration equally, so their cues can fall below the floor; and the WebVTT
translation path uses a different heuristic with no floor at all. -/
theorem claims_C1_dwell_floor (translation : String)
    (h : ∀ s ∈ pySentences translation, (pyWords s).length ≤ 12) :
    ∀ c ∈ srtPacingCues translation, 3/2 ≤ c.end_time - c.start_time := by
  intro c hc
  exact pacingGo_floor _ _ h 0 1 c hc

unseal Rat.mul Rat.add Rat.sub Rat.inv in
/-- C1 witness: the amended theorem applied to the two-short-sentence
translation `"Hello there. Bye."`. -/
theorem claims_C1_witness :
    3/2 ≤ (Cue.mk 1 0 (3/2) "Hello there.").end_time -
        (Cue.mk 1 0 (3/2) "Hello there.").start_time :=
  claims_C1_dwell_floor "Hello there. Bye." (by decide) _ (by decide)

unseal Rat.mul Rat.add Rat.sub Rat.inv in
/-- C6 counterexample: the WebVTT translation path does not follow the
`max(L/30, 1.5)` rule. For the single short sentence `"Hello world."`
(L = 12, 2 words) it emits one cue of duration 11/20 s, not
`max(12/30, 1.5) = 1.5` s. -/
theorem claims_C6_counterexample :
    vttTranslationCues "Hello world." = [⟨0, 0, 11/20, "Hello world."⟩] ∧
      ¬ ((11 : ℚ)/20 - 0 = max ((12 : ℚ)/30) (3/2)) := by
  decide

/-- C6 (amended): on the SRT pacing path, a translation consisting of a
single sentence of fewer than 12 words and character length `L` produces
exactly one cue, starting at time 0, of duration `max(L/30, 1.5)` seconds
(the WebVTT translation path does not follow this rule). -/
theorem claims_C6_single_short_sentence (translation s : String)
    (hsent : pySentences translation = [s]) (hne : pyStrip s ≠ "")
    (hw : (pyWords s).length < 12) :
    srtPacingCues translation =
      [⟨1, 0, max ((s.length : ℚ) / 30) (3/2), s⟩] := by
  have hL : (0 : ℚ) < (s.length : ℚ) := by
    have : s ≠ "" := fun h => hne (by simp [h, pyStrip, pyStripChars, pyStripL, pyStripR])
    have : s.length ≠ 0 := by
      intro h0
      exact this (String.ext (List.length_eq_zero.mp h0))
    exact_mod_cast Nat.pos_of_ne_zero this
  have hM : (0 : ℚ) < max ((s.length : ℚ) / 30) 1 := lt_max_of_lt_right one_pos
  rw [srtPacingCues, hsent]
  simp only [List.map_cons, List.map_nil, List.sum_cons, List.sum_nil, List.length_cons,
    List.length_nil, Nat.cast_ofNat, add_zero]
  rw [pacingGo, if_neg hne, if_neg (by omega : ¬ 12 < (pyWords s).length), pacingGo]
  have hdiv : (s.length : ℚ) / ((s.length : ℚ) / max ((s.length : ℚ) / 30) 1) =
      max ((s.length : ℚ) / 30) 1 := by
    rw [div_div_eq_mul_div, mul_comm, mul_div_assoc, div_self hL.ne', mul_one]
  have hmax : max (max ((s.length : ℚ) / 30) 1) (3/2) = max ((s.length : ℚ) / 30) (3/2) := by
    rw [max_assoc, max_eq_right (by norm_num : (1 : ℚ) ≤ 3/2)]
  simp only [Nat.cast_one, hdiv, hmax, zero_add]

unseal Rat.mul Rat.add Rat.sub Rat.inv in
/-- C6 witness: the amended theorem applied to `"Hello world."`. -/
theorem claims_C6_witness :
    srtPacingCues "Hello world." =
      [⟨1, 0, max ((("Hello world.").length : ℚ) / 30) (3/2), "Hello world."⟩] :=
  claims_C6_single_short_sentence "Hello world." "Hello world."
    (by decide) (by decide) (by decide)

unseal Rat.mul Rat.add Rat.sub Rat.inv in
/-- C3 counterexample: with an 11-word previous chunk and an identical
11-word current chunk, the scan's very first candidate is
`min(len(prev) - 0, len(curr)) = 11 > 10`, it matches (the chunks are
identical), and all 11 leading words are stripped, so the current chunk
becomes empty and is dropped. Under the claim's description (candidates
range from 2 up to at most 10, only the last 10 words of the previous chunk
participate) no candidate would match here — `prev[-k:]` and `curr[:k]`
differ for every `k ≤ 10` — and the chunk would be kept unchanged. -/
theorem claims_C3_counterexample :
    stitchChunks [⟨0, 1, "a b c d e f g h i j k"⟩, ⟨1, 2, "a b c d e f g h i j k"⟩] =
        [⟨0, 1, "a b c d e f g h i j k"⟩] ∧
      (pyWords "a b c d e f g h i j k").length = 11 := by
  decide

/-- If the overlap scan returns nothing, no visited candidate of size ≥ 2
matches. -/
theorem findOverlapGo_none_eq (p c : List String) :
    ∀ js : List ℕ, findOverlapGo p c js = none →
      ∀ j ∈ js, 2 ≤ min (p.length - j) c.length →
        phrasesMatch p c (min (p.length - j) c.length) = false := by
  intro js
  induction js with
  | nil => intro _ j hj; exact absurd hj (List.not_mem_nil j)
  | cons a js ih =>
    intro hnone j hj h2
    rw [findOverlapGo] at hnone
    by_cases hc : 2 ≤ min (p.length - a) c.length ∧ phrasesMatch p c (min (p.length - a) c.length)
    · rw [if_pos hc] at hnone
      exact absurd hnone (by simp)
    · rw [if_neg hc] at hnone
      rcases List.mem_cons.mp hj with rfl | hj'
      · rcases Bool.eq_false_or_eq_true (phrasesMatch p c (min (p.length - j) c.length)) with
          hb | hb
        · exact absurd ⟨h2, hb⟩ hc
        · exact hb
      · exact ih hnone j hj' h2

/-- If the overlap scan over a `≤`-sorted candidate index list returns `n`,
then `n` arises from a visited index, is at least 2 words, matches, and is
the largest matching candidate the scan can see. -/
theorem findOverlapGo_some_eq (p c : List String) :
    ∀ js : List ℕ, js.Pairwise (· ≤ ·) →
      ∀ n, findOverlapGo p c js = some n →
        (∃ j ∈ js, n = min (p.length - j) c.length) ∧ 2 ≤ n ∧
          phrasesMatch p c n = true ∧
          ∀ j ∈ js, 2 ≤ min (p.length - j) c.length →
            phrasesMatch p c (min (p.length - j) c.length) = true →
            min (p.length - j) c.length ≤ n := by
  intro js
  induction js with
  | nil => intro _ n hn; exact absurd hn (by simp [findOverlapGo])
  | cons a js ih =>
    intro hpw n hn
    have ha : ∀ b ∈ js, a ≤ b := (List.pairwise_cons.mp hpw).1
    have hpw' : js.Pairwise (· ≤ ·) := (List.pairwise_cons.mp hpw).2
    rw [findOverlapGo] at hn
    by_cases hc : 2 ≤ min (p.length - a) c.length ∧ phrasesMatch p c (min (p.length - a) c.length)
    · rw [if_pos hc] at hn
      have hna : n = min (p.length - a) c.length := (Option.some.injEq _ _).mp hn.symm
      subst hna
      refine ⟨⟨a, List.mem_cons_self a js, rfl⟩, hc.1, hc.2, ?_⟩
      intro j hj _ _
      rcases List.mem_cons.mp hj with rfl | hj'
      · exact le_refl _
      · have := ha j hj'
        omega
    · rw [if_neg hc] at hn
      obtain ⟨⟨j0, hj0, hj0e⟩, h2, hm, hmax⟩ := ih hpw' n hn
      refine ⟨⟨j0, List.mem_cons_of_mem a hj0, hj0e⟩, h2, hm, ?_⟩
      intro j hj hj2 hjm
      rcases List.mem_cons.mp hj with rfl | hj'
      · exact absurd ⟨hj2, hjm⟩ hc
      · exact hmax j hj' hj2 hjm

/-- C3 (amended): the candidate overlap sizes compared by the stitcher are
`min(len(prev) - j, len(curr))` for `j = 0, …, min(10, len(prev)) - 1` —
only the number of scan steps is capped at 10, not the overlap size, so
candidates can exceed 10 words and more than the last 10 words of the
previous chunk can participate. Among those candidates of at least 2 words,
the first (hence largest) whose phrases match case-insensitively determines
how many leading words are stripped from the current chunk; if none matches
the text is kept, and a chunk whose text becomes empty is dropped. -/
theorem claims_C3_overlap_window (p c : List String) :
    (∀ n, findOverlap p c = some n →
        2 ≤ n ∧ (∃ j, j < min 10 p.length ∧ n = min (p.length - j) c.length) ∧
          phrasesMatch p c n = true ∧
          ∀ j, j < min 10 p.length → 2 ≤ min (p.length - j) c.length →
            phrasesMatch p c (min (p.length - j) c.length) = true →
            min (p.length - j) c.length ≤ n) ∧
    (findOverlap p c = none →
      ∀ j, j < min 10 p.length → 2 ≤ min (p.length - j) c.length →
        phrasesMatch p c (min (p.length - j) c.length) = false) ∧
    (∀ pre cur : Chunk, pre.text ≠ "" → cur.text ≠ "" →
      (pyWords pre.text = p → pyWords cur.text = c →
        stitchChunks [pre, cur] =
          match findOverlap p c with
          | some n =>
            if unwords (c.drop n) = "" then [pre]
            else [pre, ⟨cur.start_time, cur.end_time, unwords (c.drop n)⟩]
          | none => [pre, cur])) := by
  refine ⟨?_, ?_, ?_⟩
  · intro n hn
    obtain ⟨⟨j0, hj0, hj0e⟩, h2, hm, hmax⟩ :=
      findOverlapGo_some_eq p c (List.range (min 10 p.length))
        ((List.pairwise_lt_range _).imp le_of_lt) n hn
    exact ⟨h2, ⟨j0, List.mem_range.mp hj0, hj0e⟩, hm,
      fun j hj => hmax j (List.mem_range.mpr hj)⟩
  · intro hn j hj
    exact findOverlapGo_none_eq p c _ hn j (List.mem_range.mpr hj)
  · intro pre cur hpre hcur hp hc
    obtain ⟨ps, pe, pt⟩ := pre
    obtain ⟨qs, qe, qt⟩ := cur
    simp only at hpre hcur hp hc
    have hstep : stitchChunks [⟨ps, pe, pt⟩, ⟨qs, qe, qt⟩] =
        stitchStep (stitchStep [] (0, ⟨ps, pe, pt⟩)) (1, ⟨qs, qe, qt⟩) := rfl
    rw [hstep]
    have h1 : stitchStep [] (0, (⟨ps, pe, pt⟩ : Chunk)) = [⟨ps, pe, pt⟩] := by
      simp only [stitchStep, if_neg hpre]
      rw [if_neg (by omega : ¬ 0 < 0)]
      simp [hpre]
    rw [h1]
    simp only [stitchStep, if_neg hcur]
    rw [if_pos (by omega : 0 < 1)]
    simp only [List.getLast?_singleton, hp, hc]
    rcases hov : findOverlap p c with _ | n
    · simp [hcur]
    · by_cases he : unwords (c.drop n) = "" <;> simp [he]


unseal Rat.mul Rat.add Rat.sub Rat.inv in
/-- C3 witness: the amended theorem applied to the spec's own example pair —
the scan finds the 2-word overlap `"brown fox"` and strips exactly 2 leading
words from the current chunk. -/
theorem claims_C3_witness :
    stitchChunks [⟨0, 1, "the quick brown fox"⟩, ⟨1, 2, "brown fox jumps over"⟩] =
      [⟨0, 1, "the quick brown fox"⟩, ⟨1, 2, "jumps over"⟩] := by
  have h := (claims_C3_overlap_window (pyWords "the quick brown fox")
      (pyWords "brown fox jumps over")).2.2
      ⟨0, 1, "the quick brown fox"⟩ ⟨1, 2, "brown fox jumps over"⟩
      (by decide) (by decide) rfl rfl
  rw [h]
  decide

/-- The index bound of `range(0, L, step)`: index `k` is visited exactly when
`k * step < L`. -/
theorem lt_numStarts_iff {L step : ℕ} (hstep : 0 < step) (k : ℕ) :
    k < (L + step - 1) / step ↔ k * step < L := by
  rw [Nat.lt_iff_add_one_le, Nat.le_div_iff_mul_le hstep, Nat.add_one, Nat.succ_mul]
  omega

/-- Membership in `range(0, L, step)`: the multiples of `step` below `L`. -/
theorem mem_windowStarts_iff {L step : ℕ} (hstep : 0 < step) (i : ℕ) :
    i ∈ windowStarts L step ↔ ∃ k, i = k * step ∧ i < L := by
  simp only [windowStarts, List.mem_map, List.mem_range]
  constructor
  · rintro ⟨k, hk, rfl⟩
    exact ⟨k, rfl, (lt_numStarts_iff hstep k).mp hk⟩
  · rintro ⟨k, rfl, hkL⟩
    exact ⟨k, (lt_numStarts_iff hstep k).mpr hkL, rfl⟩

/-- C7 counterexample: the kept windows do not always cover
`[0, waveform_duration)`. With the default 15 s / 3 s configuration, a
half-second waveform (8000 samples) produces no window at all (the single
candidate is shorter than one second and is dropped); with 2 s chunks and
0 s overlap, a 2.5 s waveform (40000 samples) gets a single window
`[0, 32000)` and the tail `[32000, 40000)` — e.g. sample 32000 — is covered
by nothing. -/
theorem claims_C7_counterexample :
    (keptWindows 8000 15 3 = [] ∧ 0 < 8000) ∧
      (keptWindows 40000 2 0 = [(0, 32000)] ∧ 32000 < 40000 ∧
        ∀ w ∈ keptWindows 40000 2 0, ¬(w.1 ≤ 32000 ∧ 32000 < w.2)) := by
  decide

/-- A list filter by a position-downward-closed predicate is a `takeWhile`. -/
theorem filter_eq_takeWhile_of_closed {α : Type} (p : α → Bool) :
    ∀ l : List α,
      (∀ i j : ℕ, i ≤ j → ∀ (hj : j < l.length) (hi : i < l.length),
        p l[j] = true → p l[i] = true) →
      l.filter p = l.takeWhile p := by
  intro l
  induction l with
  | nil => intro _; rfl
  | cons a t ih =>
    intro h
    by_cases ha : p a = true
    · rw [List.filter_cons_of_pos ha, List.takeWhile_cons_of_pos ha]
      refine congrArg _ (ih ?_)
      intro i j hij hj hi hpj
      exact h (i + 1) (j + 1) (by omega) (by simpa using hj) (by simpa using hi)
        (by simpa using hpj)
    · rw [List.filter_cons_of_neg (by simpa using ha), List.takeWhile_cons_of_neg
        (by simpa using ha)]
      rw [List.filter_eq_nil_iff]
      intro b hb
      obtain ⟨j, hj, rfl⟩ := List.mem_iff_getElem.mp hb
      intro hpb
      exact ha (h 0 (j + 1) (by omega) (by simpa using hj) (by simp) (by simpa using hpb))

/-- An entry of `takeWhile` is the entry of the underlying list at the same
position. -/
theorem takeWhile_getElem_eq {α : Type} (p : α → Bool) :
    ∀ (l : List α) (n : ℕ) (x : α), (l.takeWhile p)[n]? = some x → l[n]? = some x := by
  intro l
  induction l with
  | nil => intro n x hx; simp [List.takeWhile] at hx
  | cons a t ih =>
    intro n x hx
    by_cases ha : p a = true
    · rw [List.takeWhile_cons_of_pos ha] at hx
      match n with
      | 0 => simpa using hx
      | n + 1 =>
        simp only [List.getElem?_cons_succ] at hx ⊢
        exact ih n x hx
    · rw [List.takeWhile_cons_of_neg (by simpa using ha)] at hx
      simp at hx

/-- C7 (amended): for valid overlapping configurations (`1 ≤ o < c` seconds)
and waveforms of at least one second, the kept windows do cover
`[0, L)` with no gaps; and any two windows at consecutive positions of the
kept list start `(c-o)·16000` samples apart, do not leave a gap, and overlap
by exactly `o·16000` samples whenever the earlier one is not truncated by the
end of the waveform (truncation is what the original claim's "except possibly
the final window" was about, but with a short waveform the whole window list
can be empty and the tail of the waveform uncovered, and with `o = 0` a
dropped sub-second tail window also leaves a gap). -/
theorem claims_C7_window_geometry (c o L : ℕ) (ho : 1 ≤ o) (hco : o < c)
    (hL : sampleRate ≤ L) :
    (∀ t, t < L → ∃ w ∈ keptWindows L c o, w.1 ≤ t ∧ t < w.2) ∧
    (∀ (n : ℕ) (w1 w2 : ℕ × ℕ), (keptWindows L c o)[n]? = some w1 →
      (keptWindows L c o)[n + 1]? = some w2 →
      w2.1 = w1.1 + (c - o) * sampleRate ∧ w2.1 ≤ w1.2 ∧
        (w1.1 + c * sampleRate ≤ L → w1.2 - w2.1 = o * sampleRate)) := by
  have hsr : sampleRate = 16000 := rfl
  set step := (c - o) * sampleRate with hstepdef
  set chunk := c * sampleRate with hchunkdef
  set o16 := o * sampleRate with ho16def
  have hstep : 0 < step := by
    have : 1 ≤ c - o := by omega
    calc 0 < 1 * sampleRate := by rw [hsr]; omega
    _ ≤ (c - o) * sampleRate := Nat.mul_le_mul_right _ this
  have hsum : step + o16 = chunk := by
    rw [hstepdef, ho16def, hchunkdef, ← Nat.add_mul]
    congr 1
    omega
  have hsr_step : sampleRate ≤ step := by
    calc sampleRate = 1 * sampleRate := (one_mul _).symm
    _ ≤ (c - o) * sampleRate := Nat.mul_le_mul_right _ (by omega)
  have hsr_o16 : sampleRate ≤ o16 := by
    calc sampleRate = 1 * sampleRate := (one_mul _).symm
    _ ≤ o * sampleRate := Nat.mul_le_mul_right _ ho
  have hsr_chunk : sampleRate ≤ chunk := by omega
  constructor
  · -- coverage
    intro t ht
    set q := t / step with hq
    set m := q * step with hm
    have hmod : m + t % step = t := by
      rw [hm, hq, mul_comm]
      exact Nat.div_add_mod t step
    have hr : t % step < step := Nat.mod_lt _ hstep
    have hmt : m ≤ t := by omega
    have hmL : m < L := by omega
    by_cases hkeep : sampleRate ≤ min (m + chunk) L - m
    · refine ⟨(m, min (m + chunk) L), ?_, by omega, by omega⟩
      simp only [keptWindows, allWindows, List.mem_filter, List.mem_map]
      refine ⟨⟨m, (mem_windowStarts_iff hstep m).mpr ⟨q, hm, hmL⟩, rfl⟩, ?_⟩
      simpa using hkeep
    · have hLm : L < m + sampleRate := by omega
      have hq1 : 1 ≤ q := by
        rcases Nat.eq_zero_or_pos q with h0 | h1
        · exfalso
          rw [h0] at hm
          simp at hm
          omega
        · exact h1
      have hm' : (q - 1) * step + step = m := by
        rw [hm, ← Nat.succ_mul]
        congr 1
        omega
      set m' := (q - 1) * step with hm'def
      refine ⟨(m', min (m' + chunk) L), ?_, by omega, by omega⟩
      simp only [keptWindows, allWindows, List.mem_filter, List.mem_map]
      refine ⟨⟨m', (mem_windowStarts_iff hstep m').mpr ⟨q - 1, hm'def, by omega⟩, rfl⟩, ?_⟩
      simp only [decide_eq_true_eq]
      omega
  · -- adjacency
    intro n w1 w2 h1 h2
    set N := (L + step - 1) / step with hN
    have hmapeq : allWindows L c o =
        (List.range N).map (fun k => (k * step, min (k * step + chunk) L)) := by
      rw [allWindows, windowStarts, List.map_map]
      rfl
    have hws : ∀ (k : ℕ) (w : ℕ × ℕ),
        (allWindows L c o)[k]? = some w →
        w = (k * step, min (k * step + chunk) L) ∧ k * step < L := by
      intro k w hw
      rw [hmapeq, List.getElem?_map] at hw
      rcases hk : (List.range N)[k]? with _ | s
      · rw [hk] at hw
        simp at hw
      · rw [hk] at hw
        have hkN : k < N := by
          have := (List.getElem?_eq_some.mp hk).1
          simpa using this
        have hsk : s = k := by
          rw [List.getElem?_eq_getElem (by simpa using hkN)] at hk
          simpa using hk.symm
        subst hsk
        have hw' : some (s * step, min (s * step + chunk) L) = some w := by
          simpa using hw
        exact ⟨((Option.some.injEq _ _).mp hw').symm, (lt_numStarts_iff hstep s).mp hkN⟩
    have hclosed : ∀ i j : ℕ, i ≤ j →
        ∀ (hj : j < (allWindows L c o).length) (hi : i < (allWindows L c o).length),
        (fun w : ℕ × ℕ => decide (sampleRate ≤ w.2 - w.1)) (allWindows L c o)[j] = true →
        (fun w : ℕ × ℕ => decide (sampleRate ≤ w.2 - w.1)) (allWindows L c o)[i] = true := by
      intro i j hij hj hi hpj
      have hji := List.getElem?_eq_getElem hj
      have hii := List.getElem?_eq_getElem hi
      obtain ⟨hwj, hjL⟩ := hws j _ hji
      obtain ⟨hwi, hiL⟩ := hws i _ hii
      simp only [hwj, decide_eq_true_eq] at hpj
      simp only [hwi, decide_eq_true_eq]
      have hle : i * step ≤ j * step := Nat.mul_le_mul_right _ hij
      omega
    have heq : keptWindows L c o =
        (allWindows L c o).takeWhile (fun w : ℕ × ℕ => decide (sampleRate ≤ w.2 - w.1)) :=
      filter_eq_takeWhile_of_closed _ _ hclosed
    rw [heq] at h1 h2
    have h1' := takeWhile_getElem_eq _ _ _ _ h1
    have h2' := takeWhile_getElem_eq _ _ _ _ h2
    obtain ⟨hw1, h1L⟩ := hws n w1 h1'
    obtain ⟨hw2, h2L⟩ := hws (n + 1) w2 h2'
    have hsucc : (n + 1) * step = n * step + step := by ring
    subst hw1
    subst hw2
    refine ⟨?_, ?_, ?_⟩
    · dsimp only
      exact hsucc
    · dsimp only
      omega
    · intro htrunc
      dsimp only at htrunc ⊢
      omega

/-- C7 witness: the amended theorem's coverage part applied to a 2-second
waveform with the default 15 s / 3 s configuration, at sample 20000. -/
theorem claims_C7_witness :
    ∃ w ∈ keptWindows 32000 15 3, w.1 ≤ 20000 ∧ 20000 < w.2 :=
  (claims_C7_window_geometry 15 3 32000 (by decide) (by decide) (by decide)).1
    20000 (by decide)

unseal Rat.mul Rat.add Rat.sub Rat.inv in
/-- C8 counterexample: the parsers can raise. A block whose timestamp line
has the expected ` --> ` shape but non-numeric fields (`"foo --> bar"`)
reaches `time_to_seconds`, where the three-way unpack of `"foo".split(':')`
raises `ValueError` — the block is not silently skipped, the whole parse
fails, on both the SRT and the WebVTT paths. -/
theorem claims_C8_counterexample :
    parse_srt "1\nfoo --> bar\nhello" = none ∧
      parse_vtt "WEBVTT\n\nfoo --> bar\nx" = none := by
  constructor <;> decide

/-- If the exception-propagating loop fails, some element raised. -/
theorem optMapM_eq_none {α β : Type} (f : α → Option β) :
    ∀ l : List α, optMapM f l = none → ∃ x ∈ l, f x = none := by
  intro l
  induction l with
  | nil => intro h; exact absurd h (by simp [optMapM])
  | cons x xs ih =>
    intro h
    rw [optMapM] at h
    rcases hx : f x with _ | y
    · exact ⟨x, List.mem_cons_self x xs, hx⟩
    · rw [hx] at h
      rcases hxs : optMapM f xs with _ | l'
      · obtain ⟨z, hz, hfz⟩ := ih hxs
        exact ⟨z, List.mem_cons_of_mem x hz, hfz⟩
      · rw [hxs] at h
        exact absurd h (by simp)

/-- C8 (amended): parsing is best-effort for the malformed shapes the claim
lists — a block with fewer than the minimum lines (3 for SRT, 2 for WebVTT),
without a timestamp line, or whose timestamp line does not split into
exactly two fields on ` --> ` is silently skipped — but the parser is NOT
total: whenever `parse_srt`/`parse_vtt` fails, some block had a
well-shaped ` --> ` line one of whose two timestamp fields made
`time_to_seconds` raise (not exactly three `:`-separated parts, or a
non-numeric part), and such input does raise an error. -/
theorem claims_C8_skip_and_raise :
    (∀ g : List (List Char), (blockLines g).length < 3 → parseBlockSrt g = some []) ∧
    (∀ (g : List (List Char)) (l0 l1 l2 : List Char) (rest : List (List Char)),
      blockLines g = l0 :: l1 :: l2 :: rest → (∀ t1 t2, splitArrow l1 ≠ [t1, t2]) →
      parseBlockSrt g = some []) ∧
    (∀ g : List (List Char), parseBlockSrt g = none →
      ∃ (l0 l1 l2 : List Char) (rest : List (List Char)) (t1 t2 : List Char),
        blockLines g = l0 :: l1 :: l2 :: rest ∧ splitArrow l1 = [t1, t2] ∧
          (timeToSecondsChars t1 = none ∨ timeToSecondsChars t2 = none)) ∧
    (∀ content : String, parse_srt content = none →
      ∃ g ∈ contentBlocks content.data, parseBlockSrt g = none) ∧
    (∀ g : List (List Char), (blockLines g).length < 2 → parseBlockVtt g = some []) ∧
    (∀ g : List (List Char), ¬ (blockLines g).length < 2 →
      findArrowLine (blockLines g) = none → parseBlockVtt g = some []) ∧
    (∀ g : List (List Char), parseBlockVtt g = none →
      ∃ (tline : List Char) (rest : List (List Char)) (t1 t2 : List Char),
        findArrowLine (blockLines g) = some (tline, rest) ∧ splitArrow tline = [t1, t2] ∧
          (timeToSecondsChars t1 = none ∨ timeToSecondsChars t2 = none)) ∧
    (∀ content : String, parse_vtt content = none →
      ∃ g ∈ contentBlocks (stripVttHeader content.data), parseBlockVtt g = none) := by
  have hsrtblock : ∀ g : List (List Char), parseBlockSrt g = none →
      ∃ (l0 l1 l2 : List Char) (rest : List (List Char)) (t1 t2 : List Char),
        blockLines g = l0 :: l1 :: l2 :: rest ∧ splitArrow l1 = [t1, t2] ∧
          (timeToSecondsChars t1 = none ∨ timeToSecondsChars t2 = none) := by
    intro g hg
    rcases hbl : blockLines g with _ | ⟨l0, _ | ⟨l1, _ | ⟨l2, rest⟩⟩⟩
    · simp [parseBlockSrt, hbl] at hg
    · simp [parseBlockSrt, hbl] at hg
    · simp [parseBlockSrt, hbl] at hg
    · rw [parseBlockSrt, hbl] at hg
      dsimp only at hg
      rcases hsa : splitArrow l1 with _ | ⟨t1, _ | ⟨t2, _ | ⟨t3, ts'⟩⟩⟩
      · simp [hsa] at hg
      · simp [hsa] at hg
      · rw [hsa] at hg
        dsimp only at hg
        rcases ht1 : timeToSecondsChars t1 with _ | a
        · exact ⟨l0, l1, l2, rest, t1, t2, rfl, hsa, Or.inl ht1⟩
        · rcases ht2 : timeToSecondsChars t2 with _ | b
          · exact ⟨l0, l1, l2, rest, t1, t2, rfl, hsa, Or.inr ht2⟩
          · rw [ht1, ht2] at hg
            simp at hg
      · simp [hsa] at hg
  have hvttblock : ∀ g : List (List Char), parseBlockVtt g = none →
      ∃ (tline : List Char) (rest : List (List Char)) (t1 t2 : List Char),
        findArrowLine (blockLines g) = some (tline, rest) ∧ splitArrow tline = [t1, t2] ∧
          (timeToSecondsChars t1 = none ∨ timeToSecondsChars t2 = none) := by
    intro g hg
    rw [parseBlockVtt] at hg
    by_cases hlen : (blockLines g).length < 2
    · rw [if_pos hlen] at hg
      exact absurd hg (by simp)
    · rw [if_neg hlen] at hg
      rcases hfa : findArrowLine (blockLines g) with _ | ⟨tline, rest⟩
      · rw [hfa] at hg
        simp at hg
      · rw [hfa] at hg
        dsimp only at hg
        rcases hsa : splitArrow tline with _ | ⟨t1, _ | ⟨t2, _ | ⟨t3, ts'⟩⟩⟩
        · simp [hsa] at hg
        · simp [hsa] at hg
        · rw [hsa] at hg
          dsimp only at hg
          rcases ht1 : timeToSecondsChars t1 with _ | a
          · exact ⟨tline, rest, t1, t2, rfl, hsa, Or.inl ht1⟩
          · rcases ht2 : timeToSecondsChars t2 with _ | b
            · exact ⟨tline, rest, t1, t2, rfl, hsa, Or.inr ht2⟩
            · rw [ht1, ht2] at hg
              simp at hg
        · simp [hsa] at hg
  refine ⟨?_, ?_, hsrtblock, ?_, ?_, ?_, hvttblock, ?_⟩
  · intro g hlen
    rcases hbl : blockLines g with _ | ⟨l0, _ | ⟨l1, _ | ⟨l2, rest⟩⟩⟩ <;>
      simp [parseBlockSrt, hbl] at hlen ⊢ <;> omega
  · intro g l0 l1 l2 rest hbl hsa
    rw [parseBlockSrt, hbl]
    dsimp only
    rcases hsa' : splitArrow l1 with _ | ⟨t1, _ | ⟨t2, _ | ⟨t3, ts'⟩⟩⟩
    · simp [hsa']
    · simp [hsa']
    · exact absurd hsa' (hsa t1 t2)
    · simp [hsa']
  · intro content hc
    rw [parse_srt] at hc
    rcases hm : optMapM parseBlockSrt (contentBlocks content.data) with _ | l'
    · exact optMapM_eq_none _ _ hm
    · rw [hm] at hc
      exact absurd hc (by simp)
  · intro g hlen
    rw [parseBlockVtt, if_pos hlen]
  · intro g hlen hfa
    rw [parseBlockVtt, if_neg hlen, hfa]
  · intro content hc
    rw [parse_vtt] at hc
    rcases hm : optMapM parseBlockVtt (contentBlocks (stripVttHeader content.data)) with _ | l'
    · exact optMapM_eq_none _ _ hm
    · rw [hm] at hc
      exact absurd hc (by simp)

unseal Rat.mul Rat.add Rat.sub Rat.inv in
/-- C8 witness: the amended theorem applied to the counterexample content —
the failing parse is pinned to a block whose ` --> ` line has an unparsable
timestamp field. -/
theorem claims_C8_witness :
    ∃ g ∈ contentBlocks ("1\nfoo --> bar\nhello").data, parseBlockSrt g = none :=
  claims_C8_skip_and_raise.2.2.2.1 "1\nfoo --> bar\nhello" (by decide)

/-! Helper lemmas for the C4 round trip: digit strings. -/

theorem digitChar_isDigit : ∀ d : ℕ, d < 10 → (digitChar d).isDigit = true := by
  decide

theorem digitChar_toNat : ∀ d : ℕ, d < 10 → (digitChar d).toNat = 48 + d := by
  decide

theorem isDigit_not_space {c : Char} (h : c.isDigit = true) : pyIsSpace c = false := by
  rcases hs : pyIsSpace c with _ | _
  · rfl
  · exfalso
    simp only [pyIsSpace, Bool.or_eq_true, beq_iff_eq] at hs
    rcases hs with ((((rfl | rfl) | rfl) | rfl) | rfl) | rfl <;> simp [Char.isDigit] at h

theorem isDigit_ne {c : Char} (h : c.isDigit = true) :
    c ≠ '\n' ∧ c ≠ ':' ∧ c ≠ ',' ∧ c ≠ ' ' ∧ c ≠ '-' ∧ c ≠ '>' := by
  refine ⟨?_, ?_, ?_, ?_, ?_, ?_⟩ <;> rintro rfl <;> simp [Char.isDigit] at h

theorem natCharsGo_digits : ∀ fuel n : ℕ, n < fuel →
    ∀ c ∈ natCharsGo fuel n, c.isDigit = true := by
  intro fuel
  induction fuel with
  | zero => intro n hn; omega
  | succ f ih =>
    intro n hn c hc
    rw [natCharsGo] at hc
    by_cases h10 : n < 10
    · rw [if_pos h10] at hc
      simp only [List.mem_singleton] at hc
      subst hc
      exact digitChar_isDigit n h10
    · rw [if_neg h10] at hc
      rcases List.mem_cons.mp hc with rfl | hc'
      · exact digitChar_isDigit _ (Nat.mod_lt _ (by omega))
      · have : n / 10 < f := by
          have := Nat.div_lt_self (by omega : 0 < n) (by omega : 1 < 10)
          omega
        exact ih (n / 10) this c hc'

theorem natChars_digits (n : ℕ) : ∀ c ∈ natChars n, c.isDigit = true := by
  intro c hc
  rw [natChars, List.mem_reverse] at hc
  exact natCharsGo_digits (n + 1) n (by omega) c hc

theorem natChars_ne_nil (n : ℕ) : natChars n ≠ [] := by
  rw [natChars, natCharsGo]
  by_cases h10 : n < 10
  · simp [if_pos h10]
  · simp [if_neg h10]

theorem padZero_digits (w n : ℕ) : ∀ c ∈ padZero w n, c.isDigit = true := by
  intro c hc
  rcases List.mem_append.mp hc with hc' | hc'
  · have := List.eq_of_mem_replicate hc'
    subst this
    decide
  · exact natChars_digits n c hc'

theorem padZero_ne_nil (w n : ℕ) : padZero w n ≠ [] := by
  rw [padZero]
  intro h
  exact natChars_ne_nil n (List.append_eq_nil.mp h).2

/-- The fuel of the digit renderer is irrelevant once it exceeds `n`. -/
theorem natCharsGo_fuel (n : ℕ) : ∀ f1 f2 : ℕ, n < f1 → n < f2 →
    natCharsGo f1 n = natCharsGo f2 n := by
  induction n using Nat.strong_induction_on with
  | _ n ih =>
    intro f1 f2 h1 h2
    match f1, f2 with
    | g1 + 1, g2 + 1 =>
      rw [natCharsGo, natCharsGo]
      by_cases h10 : n < 10
      · rw [if_pos h10, if_pos h10]
      · rw [if_neg h10, if_neg h10]
        have hd : n / 10 < n := Nat.div_lt_self (by omega) (by omega)
        rw [ih (n / 10) hd g1 g2 (by omega) (by omega)]

/-- The structural recursion of `natChars`. -/
theorem natChars_eq (n : ℕ) :
    natChars n = if n < 10 then [digitChar n]
      else natChars (n / 10) ++ [digitChar (n % 10)] := by
  by_cases h10 : n < 10
  · rw [if_pos h10, natChars, natCharsGo, if_pos h10]
    rfl
  · rw [if_neg h10, natChars, natCharsGo, if_neg h10]
    have hd : n / 10 < n := Nat.div_lt_self (by omega) (by omega)
    rw [natCharsGo_fuel (n / 10) n (n / 10 + 1) (by omega) (by omega)]
    rw [List.reverse_cons, natChars]

theorem digitsVal_append_digit (l : List Char) (d : Char) :
    digitsVal (l ++ [d]) = 10 * digitsVal l + (d.toNat - 48) := by
  rw [digitsVal, digitsVal, List.foldl_append]
  simp [Nat.mul_comm]

theorem digitsVal_natChars (n : ℕ) : digitsVal (natChars n) = n := by
  induction n using Nat.strong_induction_on with
  | _ n ih =>
    rw [natChars_eq]
    by_cases h10 : n < 10
    · rw [if_pos h10]
      simp [digitsVal, digitChar_toNat n h10]
    · rw [if_neg h10, digitsVal_append_digit]
      rw [ih (n / 10) (Nat.div_lt_self (by omega) (by omega))]
      rw [digitChar_toNat _ (Nat.mod_lt _ (by omega))]
      omega

theorem digitsVal_replicate_zero (k : ℕ) (l : List Char) :
    digitsVal (List.replicate k '0' ++ l) = digitsVal l := by
  induction k with
  | zero => simp
  | succ m ih =>
    rw [List.replicate_succ, List.cons_append]
    show digitsVal ('0' :: (List.replicate m '0' ++ l)) = digitsVal l
    rw [digitsVal, List.foldl_cons]
    simpa [digitsVal] using ih

theorem digitsVal_padZero (w n : ℕ) : digitsVal (padZero w n) = n := by
  rw [padZero, digitsVal_replicate_zero, digitsVal_natChars]

/-- Stripping leaves a whitespace-free string unchanged. -/
theorem dropWhile_no_hit (p : Char → Bool) (m : List Char)
    (hm : ∀ c ∈ m, p c = false) : m.dropWhile p = m := by
  rcases m with _ | ⟨a, t⟩
  · rfl
  · rw [List.dropWhile_cons_of_neg]
    simp [hm a (List.mem_cons_self _ _)]

theorem pyStripChars_no_ws (l : List Char) (h : ∀ c ∈ l, pyIsSpace c = false) :
    pyStripChars l = l := by
  rw [pyStripChars, pyStripL, dropWhile_no_hit _ _ h, pyStripR,
    dropWhile_no_hit _ _ (fun c hc => h c (List.mem_reverse.mp hc)), List.reverse_reverse]

/-- Python `float()` on a non-empty digit string. -/
theorem pyFloat_digits (l : List Char) (hne : l ≠ [])
    (hd : ∀ c ∈ l, c.isDigit = true) : pyFloat l = some ((digitsVal l : ℕ) : ℚ) := by
  have hnw : ∀ c ∈ l, pyIsSpace c = false := fun c hc => isDigit_not_space (hd c hc)
  rw [pyFloat]
  simp only [pyStripChars_no_ws l hnw]
  have hhead : ∃ c, l.head? = some c ∧ c.isDigit = true := by
    rcases l with _ | ⟨c, l'⟩
    · exact absurd rfl hne
    · exact ⟨c, rfl, hd c (List.mem_cons_self _ _)⟩
  obtain ⟨c0, hc0, hc0d⟩ := hhead
  have hm : l.head? ≠ some '-' := by
    rw [hc0]
    intro h
    have := (Option.some.injEq _ _).mp h
    subst this
    exact absurd hc0d (by decide)
  have hp : l.head? ≠ some '+' := by
    rw [hc0]
    intro h
    have := (Option.some.injEq _ _).mp h
    subst this
    exact absurd hc0d (by decide)
  rw [if_neg hm, if_neg (by simp [hm, hp] : ¬(l.head? = some '-' ∨ l.head? = some '+'))]
  have htw : l.takeWhile Char.isDigit = l := List.takeWhile_eq_self_iff.mpr hd
  rw [htw]
  rw [List.drop_length]
  have : l.isEmpty = false := by
    rcases l with _ | _
    · exact absurd rfl hne
    · rfl
  simp [this]

/-! Helper lemmas for the C4 round trip: the rendered timestamp. -/

theorem roundHalfEven_intCast (n : ℤ) : roundHalfEven ((n : ℚ)) = n := by
  simp only [roundHalfEven, Int.floor_intCast]
  norm_num

/-- The timedelta fields of a whole-millisecond time inside one day. -/
theorem tsFields_of_ms (k : ℕ) (hk : k < 86400000) :
    (tsFields ((k : ℚ) / 1000)).1.toNat = k / 1000 / 3600 ∧
    (tsFields ((k : ℚ) / 1000)).2.1.toNat = k / 1000 % 3600 / 60 ∧
    (tsFields ((k : ℚ) / 1000)).2.2.1.toNat = k / 1000 % 3600 % 60 ∧
    (tsFields ((k : ℚ) / 1000)).2.2.2.toNat = k % 1000 := by
  have hus : (k : ℚ) / 1000 * 1000000 = (((1000 * k : ℤ) : ℚ)) := by
    push_cast
    ring
  simp only [tsFields, hus, roundHalfEven_intCast]
  refine ⟨?_, ?_, ?_, ?_⟩ <;> dsimp only <;> omega

/-- The characters of the SRT timestamp rendering. -/
theorem format_timestamp_srt_data (q : ℚ) :
    (format_timestamp q "srt").data =
      padZero 2 (tsFields q).1.toNat ++ ':' :: padZero 2 (tsFields q).2.1.toNat ++
        ':' :: padZero 2 (tsFields q).2.2.1.toNat ++ ',' :: padZero 3 (tsFields q).2.2.2.toNat := by
  simp [format_timestamp]

/-- Every character of the SRT timestamp rendering is a digit, `:` or `,`. -/
theorem format_timestamp_srt_chars (q : ℚ) :
    ∀ c ∈ (format_timestamp q "srt").data,
      c.isDigit = true ∨ c = ':' ∨ c = ',' := by
  intro c hc
  rw [format_timestamp_srt_data] at hc
  simp only [List.mem_append, List.mem_cons] at hc
  casesm* _ ∨ _
  all_goals
    first
      | exact Or.inl (padZero_digits _ _ c (by assumption))
      | (rename_i h; subst h; simp)

theorem ts_char_ne_space {c : Char} (h : c.isDigit = true ∨ c = ':' ∨ c = ',') :
    c ≠ ' ' := by
  rcases h with h | rfl | rfl
  · exact (isDigit_ne h).2.2.2.1
  · decide
  · decide

theorem ts_char_ne_nl {c : Char} (h : c.isDigit = true ∨ c = ':' ∨ c = ',') :
    c ≠ '\n' := by
  rcases h with h | rfl | rfl
  · exact (isDigit_ne h).1
  · decide
  · decide

theorem padZero_no_colon_comma (w n : ℕ) :
    ∀ c ∈ padZero w n, c ≠ ':' ∧ c ≠ ',' := by
  intro c hc
  have h := padZero_digits w n c hc
  exact ⟨(isDigit_ne h).2.1, (isDigit_ne h).2.2.1⟩

theorem padZero_no_space (w n : ℕ) : ∀ c ∈ padZero w n, c ≠ ' ' := by
  intro c hc
  exact (isDigit_ne (padZero_digits w n c hc)).2.2.2.1

/-- The head of a zero-padded number is a digit. -/
theorem padZero_head_digit (w n : ℕ) :
    ∃ c, (padZero w n).head? = some c ∧ c.isDigit = true := by
  rcases hp : padZero w n with _ | ⟨c, r⟩
  · exact absurd hp (padZero_ne_nil w n)
  · exact ⟨c, rfl, padZero_digits w n c (by rw [hp]; exact List.mem_cons_self _ _)⟩

/-! Helper lemmas for the C4 round trip: splitting and joining. -/

theorem splitBy_ne_nil {α : Type} (p : α → Bool) (l : List α) : splitBy p l ≠ [] := by
  rcases l with _ | ⟨x, xs⟩
  · simp [splitBy]
  · rw [splitBy]
    rcases h : splitBy p xs with _ | ⟨g, gs⟩
    · simp
    · by_cases hp : p x = true <;> simp [hp]

theorem splitBy_no_sep {α : Type} (p : α → Bool) :
    ∀ l : List α, (∀ y ∈ l, p y = false) → splitBy p l = [l] := by
  intro l
  induction l with
  | nil => intro _; rfl
  | cons x xs ih =>
    intro h
    rw [splitBy, ih (fun y hy => h y (List.mem_cons_of_mem x hy))]
    simp [h x (List.mem_cons_self x xs)]

theorem splitBy_append_sep {α : Type} (p : α → Bool) (rest : List α) :
    ∀ (a : List α) (x : α), (∀ y ∈ a, p y = false) → p x = true →
      splitBy p (a ++ x :: rest) = a :: splitBy p rest := by
  intro a
  induction a with
  | nil =>
    intro x _ hx
    rw [List.nil_append, splitBy]
    rcases h : splitBy p rest with _ | ⟨g, gs⟩
    · exact absurd h (splitBy_ne_nil p rest)
    · simp [hx]
  | cons c a' ih =>
    intro x h hx
    rw [List.cons_append, splitBy,
      ih x (fun y hy => h y (List.mem_cons_of_mem c hy)) hx]
    simp [h c (List.mem_cons_self c a')]

theorem joinWith_cons (sep : Char) (l : List Char) (ls : List (List Char)) (h : ls ≠ []) :
    joinWith sep (l :: ls) = l ++ sep :: joinWith sep ls := by
  rcases ls with _ | ⟨m, ms⟩
  · exact absurd rfl h
  · rfl

theorem splitOnChar_joinWith (sep : Char) :
    ∀ ls : List (List Char), ls ≠ [] → (∀ l ∈ ls, ∀ c ∈ l, c ≠ sep) →
      splitOnChar sep (joinWith sep ls) = ls := by
  intro ls
  induction ls with
  | nil => intro h; exact absurd rfl h
  | cons l ms ih =>
    intro _ h
    rcases ms with _ | ⟨m, ms'⟩
    · show splitOnChar sep (joinWith sep [l]) = [l]
      rw [joinWith]
      exact splitBy_no_sep _ l (fun y hy => by
        simp [h l (List.mem_cons_self _ _) y hy])
    · rw [joinWith_cons sep l (m :: ms') (by simp), splitOnChar,
        splitBy_append_sep _ _ l sep
          (fun y hy => by simp [h l (List.mem_cons_self _ _) y hy])
          (by simp)]
      rw [← splitOnChar]
      rw [ih (by simp) (fun x hx => h x (List.mem_cons_of_mem l hx))]

/-- A whitespace-free, non-`[]` line is not whitespace-only; a line with a
non-whitespace member is not whitespace-only. -/
theorem isWsOnly_false_of_mem {l : List Char} {c : Char} (hc : c ∈ l)
    (h : pyIsSpace c = false) : isWsOnly l = false := by
  rw [isWsOnly]
  rcases hall : l.all pyIsSpace with _ | _
  · rfl
  · rw [List.all_eq_true] at hall
    rw [hall c hc] at h
    cases h

/-! Helper lemmas for the C4 round trip: the ` --> ` separator. -/

theorem splitArrowGo_nil (fuel : ℕ) (acc : List Char) :
    splitArrowGo fuel acc [] = [acc.reverse] := by
  rcases fuel with _ | f <;> rfl

theorem splitArrowGo_zero (acc : List Char) (c : Char) (cs : List Char) :
    splitArrowGo 0 acc (c :: cs) = [acc.reverse ++ c :: cs] := rfl

theorem splitArrowGo_succ (f : ℕ) (acc : List Char) (c : Char) (cs : List Char) :
    splitArrowGo (f + 1) acc (c :: cs) =
      if arrowSep.isPrefixOf (c :: cs) then
        acc.reverse :: splitArrowGo f [] ((c :: cs).drop 5)
      else splitArrowGo f (c :: acc) cs := rfl

theorem arrowSep_not_pre {c : Char} (hc : c ≠ ' ') (cs : List Char) :
    arrowSep.isPrefixOf (c :: cs) = false := by
  have h : (' ' == c) = false := beq_eq_false_iff_ne.mpr (fun h => hc h.symm)
  rw [arrowSep, List.isPrefixOf_cons₂, h, Bool.false_and]

theorem splitArrowGo_no_space (b : List Char) (hb : ∀ c ∈ b, c ≠ ' ') :
    ∀ (fuel : ℕ) (acc : List Char), splitArrowGo fuel acc b = [acc.reverse ++ b] := by
  induction b with
  | nil => intro fuel acc; simp [splitArrowGo_nil]
  | cons c cs ih =>
    intro fuel acc
    rcases fuel with _ | f
    · exact splitArrowGo_zero acc c cs
    · rw [splitArrowGo_succ,
        if_neg (by rw [arrowSep_not_pre (hb c (List.mem_cons_self _ _)) cs]; simp),
        ih (fun d hd => hb d (List.mem_cons_of_mem c hd)) f (c :: acc)]
      simp

theorem splitArrow_two_fields (a b : List Char) (ha : ∀ c ∈ a, c ≠ ' ')
    (hb : ∀ c ∈ b, c ≠ ' ') : splitArrow (a ++ arrowSep ++ b) = [a, b] := by
  have main : ∀ (a' : List Char), (∀ c ∈ a', c ≠ ' ') → ∀ (fuel : ℕ) (acc : List Char),
      (a' ++ arrowSep ++ b).length ≤ fuel →
      splitArrowGo fuel acc (a' ++ arrowSep ++ b) = [acc.reverse ++ a', b] := by
    intro a'
    induction a' with
    | nil =>
      intro _ fuel acc hfuel
      have hsh : ([] : List Char) ++ arrowSep ++ b = ' ' :: ('-' :: '-' :: '>' :: ' ' :: b) :=
        rfl
      rw [hsh] at hfuel ⊢
      rcases fuel with _ | f
      · simp at hfuel
      · rw [splitArrowGo_succ, if_pos (by rw [arrowSep]; simp [List.isPrefixOf_cons₂])]
        have hdrop : (' ' :: ('-' :: '-' :: '>' :: ' ' :: b)).drop 5 = b := rfl
        rw [hdrop, splitArrowGo_no_space b hb]
        simp
    | cons c a'' ih =>
      intro ha' fuel acc hfuel
      have hc : c ≠ ' ' := ha' c (List.mem_cons_self _ _)
      have hsh : (c :: a'') ++ arrowSep ++ b = c :: (a'' ++ arrowSep ++ b) := by
        simp
      rw [hsh] at hfuel ⊢
      rcases fuel with _ | f
      · simp at hfuel
      · rw [splitArrowGo_succ, if_neg (by rw [arrowSep_not_pre hc]; simp),
          ih (fun d hd => ha' d (List.mem_cons_of_mem c hd)) f (c :: acc)
            (by simp at hfuel ⊢; omega)]
        simp
  have h := main a ha (a ++ arrowSep ++ b).length [] (le_refl _)
  rw [splitArrow]
  simpa using h

/-! Helper lemmas for the C4 round trip: parsing a rendered timestamp. -/

theorem contains_append_cons (l : List Char) (c : Char) (r : List Char) :
    (l ++ c :: r).contains c = true := by
  simp [List.contains]

/-- `time_to_seconds` recovers the value of a rendered `HH:MM:SS,mmm`. -/
theorem timeToSeconds_of_fields (H M S MS : ℕ) :
    timeToSecondsChars
        (padZero 2 H ++ ':' :: (padZero 2 M ++ ':' :: (padZero 2 S ++ ',' :: padZero 3 MS))) =
      some ((H : ℚ) * 3600 + (M : ℚ) * 60 + ((S : ℚ) + (MS : ℚ) / 1000)) := by
  have hsplit : splitOnChar ':'
      (padZero 2 H ++ ':' :: (padZero 2 M ++ ':' :: (padZero 2 S ++ ',' :: padZero 3 MS))) =
      [padZero 2 H, padZero 2 M, padZero 2 S ++ ',' :: padZero 3 MS] := by
    rw [splitOnChar, splitBy_append_sep _ _ _ ':'
      (fun y hy => beq_eq_false_iff_ne.mpr (padZero_no_colon_comma 2 H y hy).1)
      (by simp)]
    rw [show (fun c => c == ':') = (fun c : Char => c == ':') from rfl]
    rw [splitBy_append_sep _ _ _ ':'
      (fun y hy => beq_eq_false_iff_ne.mpr (padZero_no_colon_comma 2 M y hy).1)
      (by simp)]
    rw [splitBy_no_sep]
    intro y hy
    rcases List.mem_append.mp hy with h | h
    · exact beq_eq_false_iff_ne.mpr (padZero_no_colon_comma 2 S y h).1
    · rcases List.mem_cons.mp h with rfl | h
      · simp
      · exact beq_eq_false_iff_ne.mpr (padZero_no_colon_comma 3 MS y h).1
  rw [timeToSecondsChars, hsplit]
  dsimp only
  rw [pyFloat_digits _ (padZero_ne_nil 2 H) (padZero_digits 2 H)]
  rw [pyFloat_digits _ (padZero_ne_nil 2 M) (padZero_digits 2 M)]
  dsimp only [Option.bind_eq_bind, Option.some_bind]
  rw [if_pos (contains_append_cons _ ',' _)]
  have hsplit2 : splitOnChar ',' (padZero 2 S ++ ',' :: padZero 3 MS) =
      [padZero 2 S, padZero 3 MS] := by
    rw [splitOnChar, splitBy_append_sep _ _ _ ','
      (fun y hy => beq_eq_false_iff_ne.mpr (padZero_no_colon_comma 2 S y hy).2)
      (by simp)]
    rw [splitBy_no_sep]
    intro y hy
    exact beq_eq_false_iff_ne.mpr (padZero_no_colon_comma 3 MS y hy).2
  rw [hsplit2]
  dsimp only
  rw [pyFloat_digits _ (padZero_ne_nil 2 S) (padZero_digits 2 S)]
  rw [pyFloat_digits _ (padZero_ne_nil 3 MS) (padZero_digits 3 MS)]
  dsimp only [Option.bind_eq_bind, Option.some_bind]
  rw [digitsVal_padZero, digitsVal_padZero, digitsVal_padZero, digitsVal_padZero]
  ring_nf
  rfl

/-- Parsing the rendered timestamp of a whole-millisecond time recovers it
exactly. -/
theorem timeToSeconds_roundtrip (k : ℕ) (hk : k < 86400000) :
    timeToSecondsChars ((format_timestamp ((k : ℚ) / 1000) "srt").data) =
      some ((k : ℚ) / 1000) := by
  obtain ⟨hA, hB, hC, hD⟩ := tsFields_of_ms k hk
  have hdata : (format_timestamp ((k : ℚ) / 1000) "srt").data =
      padZero 2 (k / 1000 / 3600) ++ ':' :: (padZero 2 (k / 1000 % 3600 / 60) ++
        ':' :: (padZero 2 (k / 1000 % 3600 % 60) ++ ',' :: padZero 3 (k % 1000))) := by
    rw [format_timestamp_srt_data, hA, hB, hC, hD]
    simp [List.append_assoc]
  rw [hdata, timeToSeconds_of_fields]
  congr 1
  have e1 : k / 1000 / 3600 * 3600 + k / 1000 % 3600 / 60 * 60 + k / 1000 % 3600 % 60 =
      k / 1000 := by omega
  have e2 : k / 1000 * 1000 + k % 1000 = k := by omega
  have e1q : ((k / 1000 / 3600 : ℕ) : ℚ) * 3600 + ((k / 1000 % 3600 / 60 : ℕ) : ℚ) * 60 +
      ((k / 1000 % 3600 % 60 : ℕ) : ℚ) = ((k / 1000 : ℕ) : ℚ) := by
    exact_mod_cast e1
  have e2q : ((k / 1000 : ℕ) : ℚ) * 1000 + ((k % 1000 : ℕ) : ℚ) = (k : ℚ) := by
    exact_mod_cast e2
  linarith [e1q, e2q]

/-! Helper lemmas for the C4 round trip: stripping around a block. -/

theorem head?_append_left {α : Type} (l r : List α) (h : l ≠ []) :
    (l ++ r).head? = l.head? := by
  rcases l with _ | ⟨a, t⟩
  · exact absurd rfl h
  · rfl

theorem getLast?_append_right {α : Type} (l r : List α) (h : r ≠ []) :
    (l ++ r).getLast? = r.getLast? := by
  rw [← List.head?_reverse, List.reverse_append,
    head?_append_left _ _ (by simp [h]), List.head?_reverse]

/-- Stripping a list whose first and last characters are not whitespace is
the identity. -/
theorem pyStripChars_no_op (l : List Char)
    (h1 : ∀ c, l.head? = some c → pyIsSpace c = false)
    (h2 : ∀ c, l.getLast? = some c → pyIsSpace c = false) :
    pyStripChars l = l := by
  rcases l with _ | ⟨a, t⟩
  · rfl
  · rw [pyStripChars, pyStripL, List.dropWhile_cons_of_neg (by simp [h1 a rfl])]
    rw [pyStripR]
    rcases hrev : (a :: t).reverse with _ | ⟨z, zs⟩
    · simp at hrev
    · have hz : (a :: t).getLast? = some z := by
        rw [← List.head?_reverse, hrev]
        rfl
      rw [List.dropWhile_cons_of_neg (by simp [h2 z hz]), ← hrev, List.reverse_reverse]

/-- Stripping text-plus-trailing-newline drops exactly the newline. -/
theorem pyStripChars_drop_nl (l : List Char)
    (h1 : ∀ c, l.head? = some c → pyIsSpace c = false)
    (h2 : ∀ c, l.getLast? = some c → pyIsSpace c = false) (hne : l ≠ []) :
    pyStripChars (l ++ ['\n']) = l := by
  rcases l with _ | ⟨a, t⟩
  · exact absurd rfl hne
  · rcases hrev : (a :: t).reverse with _ | ⟨z, zs⟩
    · simp at hrev
    · have hz : pyIsSpace z = false := h2 z (by rw [← List.head?_reverse, hrev]; rfl)
      rw [pyStripChars, pyStripL, List.cons_append,
        List.dropWhile_cons_of_neg (by simp [h1 a rfl])]
      rw [pyStripR]
      have hsh : (a :: (t ++ ['\n'])).reverse = '\n' :: (z :: zs) := by
        rw [← hrev]
        simp
      rw [hsh, List.dropWhile_cons_of_pos (by simp [pyIsSpace]),
        List.dropWhile_cons_of_neg (by simp [hz]), ← hrev, List.reverse_reverse]

/-! Helper lemmas for the C4 round trip: line shapes. -/

theorem goodTextB_spec {t : String} (h : goodTextB t = true) :
    t.data ≠ [] ∧ (∀ c ∈ t.data, c ≠ '\n') ∧
      (∀ c, t.data.getLast? = some c → pyIsSpace c = false) := by
  rw [goodTextB] at h
  simp only [Bool.and_eq_true, Bool.not_eq_true', List.all_eq_true] at h
  obtain ⟨⟨hne, hnl⟩, hlast⟩ := h
  refine ⟨by simpa [List.isEmpty_iff] using hne, ?_, ?_⟩
  · intro c hc
    simpa using hnl c hc
  · intro c hc
    rw [hc] at hlast
    simpa using hlast

/-- A whitespace-only-free witness: the head of a line whose head is a digit. -/
theorem natChars_head_digit (n : ℕ) :
    ∃ c, (natChars n).head? = some c ∧ c.isDigit = true := by
  rcases hn : natChars n with _ | ⟨c, r⟩
  · exact absurd hn (natChars_ne_nil n)
  · exact ⟨c, rfl, natChars_digits n c (by rw [hn]; exact List.mem_cons_self _ _)⟩

theorem tsLine_srt_shape (qa qb : ℚ) :
    tsLine "srt" qa qb =
      (format_timestamp qa "srt").data ++ arrowSep ++ (format_timestamp qb "srt").data := by
  rw [tsLine, arrowSep]
  simp

theorem tsLine_srt_no_nl (qa qb : ℚ) : ∀ c ∈ tsLine "srt" qa qb, c ≠ '\n' := by
  intro c hc
  rw [tsLine_srt_shape] at hc
  simp only [List.mem_append] at hc
  rcases hc with (hc | hc) | hc
  · exact ts_char_ne_nl (format_timestamp_srt_chars qa c hc)
  · rw [arrowSep] at hc
    fin_cases hc <;> decide
  · exact ts_char_ne_nl (format_timestamp_srt_chars qb c hc)

theorem fmt_data_ne_nil (q : ℚ) : (format_timestamp q "srt").data ≠ [] := by
  rcases hp : padZero 2 (tsFields q).1.toNat with _ | ⟨x, xs⟩
  · exact absurd hp (padZero_ne_nil _ _)
  · rw [format_timestamp_srt_data, hp]
    simp

theorem tsLine_srt_head_digit (qa qb : ℚ) :
    ∃ c, (tsLine "srt" qa qb).head? = some c ∧ c.isDigit = true := by
  rcases hp : padZero 2 (tsFields qa).1.toNat with _ | ⟨x, xs⟩
  · exact absurd hp (padZero_ne_nil _ _)
  · refine ⟨x, ?_, padZero_digits 2 (tsFields qa).1.toNat x
      (by rw [hp]; exact List.mem_cons_self _ _)⟩
    rw [tsLine_srt_shape, format_timestamp_srt_data, hp]
    simp

/-- Parsing a single well-formed rendered block yields its entry. -/
theorem parseBlockSrt_entry (i ka kb : ℕ) (hka : ka < 86400000) (hkb : kb < 86400000)
    (t : String) (ht : goodTextB t = true) :
    parseBlockSrt [natChars i, tsLine "srt" ((ka : ℚ) / 1000) ((kb : ℚ) / 1000), t.data] =
      some [⟨(ka : ℚ) / 1000, (kb : ℚ) / 1000, t⟩] := by
  obtain ⟨htne, htnl, htlast⟩ := goodTextB_spec ht
  obtain ⟨ci, hci, hcid⟩ := natChars_head_digit i
  have hjoin : joinWith '\n' [natChars i, tsLine "srt" ((ka : ℚ) / 1000) ((kb : ℚ) / 1000),
      t.data] = natChars i ++ '\n' ::
        (tsLine "srt" ((ka : ℚ) / 1000) ((kb : ℚ) / 1000) ++ '\n' :: t.data) := rfl
  have hlast9 : (natChars i ++ '\n' ::
      (tsLine "srt" ((ka : ℚ) / 1000) ((kb : ℚ) / 1000) ++ '\n' :: t.data)).getLast? =
      t.data.getLast? := by
    rw [getLast?_append_right _ _ (by simp),
      show ('\n' :: (tsLine "srt" ((ka : ℚ) / 1000) ((kb : ℚ) / 1000) ++ '\n' :: t.data)) =
        ['\n'] ++ (tsLine "srt" ((ka : ℚ) / 1000) ((kb : ℚ) / 1000) ++ '\n' :: t.data)
        from rfl,
      getLast?_append_right _ _ (by simp),
      getLast?_append_right _ _ (by simp),
      show ('\n' :: t.data) = ['\n'] ++ t.data from rfl,
      getLast?_append_right _ _ htne]
  have hbl : blockLines [natChars i, tsLine "srt" ((ka : ℚ) / 1000) ((kb : ℚ) / 1000),
      t.data] = [natChars i, tsLine "srt" ((ka : ℚ) / 1000) ((kb : ℚ) / 1000), t.data] := by
    rw [blockLines, hjoin, pyStripChars_no_op, ← hjoin]
    · rw [splitOnChar_joinWith]
      · simp
      · intro l hl c hc
        rcases List.mem_cons.mp hl with rfl | hl
        · exact (isDigit_ne (natChars_digits i c hc)).1
        · rcases List.mem_cons.mp hl with rfl | hl
          · exact tsLine_srt_no_nl _ _ c hc
          · rcases List.mem_cons.mp hl with rfl | hl
            · exact htnl c hc
            · cases hl
    · intro c hc
      rw [head?_append_left _ _ (natChars_ne_nil i), hci] at hc
      have : ci = c := by simpa using hc
      subst this
      exact isDigit_not_space hcid
    · intro c hc
      rw [hlast9] at hc
      exact htlast c hc
  rw [parseBlockSrt, hbl]
  dsimp only
  rw [tsLine_srt_shape, splitArrow_two_fields _ _
    (fun c hc => ts_char_ne_space (format_timestamp_srt_chars _ c hc))
    (fun c hc => ts_char_ne_space (format_timestamp_srt_chars _ c hc))]
  dsimp only
  rw [timeToSeconds_roundtrip ka hka, timeToSeconds_roundtrip kb hkb]
  rfl

/-! Helper lemmas for the C4 round trip: assembling the whole content. -/

theorem getLast?_cons_of_ne {α : Type} (a : α) (l : List α) (h : l ≠ []) :
    (a :: l).getLast? = l.getLast? :=
  getLast?_append_right [a] l h

theorem goodTextB_strip_ne {t : String} (h : goodTextB t = true) : pyStrip t ≠ "" := by
  obtain ⟨htne, _, htlast⟩ := goodTextB_spec h
  rcases hg : t.data.getLast? with _ | z
  · exact absurd (List.getLast?_eq_none.mp hg) htne
  · have hzmem : z ∈ t.data := by
      obtain ⟨hne, hz⟩ := List.mem_getLast?_eq_getLast (l := t.data) hg
      rw [hz]
      exact List.getLast_mem hne
    have hznw : pyIsSpace z = false := htlast z hg
    rw [pyStrip]
    intro hs
    have hnil : pyStripChars t.data = [] := by
      have := congrArg String.data hs
      simpa using this
    rw [pyStripChars, pyStripR] at hnil
    have hall : ∀ c ∈ (pyStripL t.data).reverse, pyIsSpace c = true :=
      List.dropWhile_eq_nil_iff.mp (List.reverse_eq_nil_iff.mp hnil)
    have hzin : z ∈ pyStripL t.data ∨ z ∈ t.data.takeWhile pyIsSpace := by
      have hsplit := List.takeWhile_append_dropWhile (p := pyIsSpace) (l := t.data)
      rw [← hsplit] at hzmem
      rcases List.mem_append.mp hzmem with h1 | h2
      · exact Or.inr h1
      · exact Or.inl h2
    rcases hzin with h1 | h2
    · have := hall z (List.mem_reverse.mpr h1)
      rw [this] at hznw
      cases hznw
    · have := List.mem_takeWhile_imp h2
      rw [this] at hznw
      cases hznw

theorem goodCue_strip_ne {ch : Chunk} (h : goodCue ch) : pyStrip ch.text ≠ "" :=
  goodTextB_strip_ne h.2.2

/-- The rendered entry lines are the core lines plus a trailing blank. -/
theorem srtChunkEntries_eq_core (cs : List Chunk) :
    ∀ i : ℕ, cs ≠ [] → (∀ ch ∈ cs, goodCue ch) →
      srtChunkEntries i cs = srtCoreLines i cs ++ [[]] := by
  induction cs with
  | nil => intro i h; exact absurd rfl h
  | cons ch rest ih =>
    intro i _ hg
    have hch := hg ch (List.mem_cons_self _ _)
    rcases rest with _ | ⟨ch2, rest'⟩
    · rw [srtChunkEntries, srtChunkEntries, if_neg (goodCue_strip_ne hch), srtCoreLines]
      rfl
    · rw [srtChunkEntries, if_neg (goodCue_strip_ne hch),
        ih (i + 1) (by simp) (fun x hx => hg x (List.mem_cons_of_mem ch hx))]
      simp [srtCoreLines]

theorem joinWith_append_nil (sep : Char) :
    ∀ X : List (List Char), X ≠ [] →
      joinWith sep (X ++ [[]]) = joinWith sep X ++ [sep] := by
  intro X
  induction X with
  | nil => intro h; exact absurd rfl h
  | cons x xs ih =>
    intro _
    rcases xs with _ | ⟨y, ys⟩
    · rfl
    · rw [List.cons_append, joinWith_cons sep x ((y :: ys) ++ [[]]) (by simp),
        ih (by simp), joinWith_cons sep x (y :: ys) (by simp)]
      simp

/-- No core line contains a newline. -/
theorem srtCoreLines_no_nl (cs : List Chunk) :
    ∀ i : ℕ, (∀ ch ∈ cs, goodCue ch) →
      ∀ l ∈ srtCoreLines i cs, ∀ c ∈ l, c ≠ '\n' := by
  induction cs with
  | nil => intro i _ l hl; cases hl
  | cons ch rest ih =>
    intro i hg l hl c hc
    have hch := hg ch (List.mem_cons_self _ _)
    have htext := (goodTextB_spec hch.2.2).2.1
    rcases rest with _ | ⟨ch2, rest'⟩
    · rw [srtCoreLines] at hl
      rcases List.mem_cons.mp hl with rfl | hl
      · exact (isDigit_ne (natChars_digits i c hc)).1
      · rcases List.mem_cons.mp hl with rfl | hl
        · exact tsLine_srt_no_nl _ _ c hc
        · rcases List.mem_cons.mp hl with rfl | hl
          · exact htext c hc
          · cases hl
    · have hl' : srtCoreLines i (ch :: ch2 :: rest') =
          [natChars i, tsLine "srt" ch.start_time ch.end_time, ch.text.data] ++
            [[]] ++ srtCoreLines (i + 1) (ch2 :: rest') := rfl
      rw [hl'] at hl
      simp only [List.cons_append, List.nil_append, List.mem_cons] at hl
      rcases hl with rfl | rfl | rfl | rfl | hl
      · exact (isDigit_ne (natChars_digits i c hc)).1
      · exact tsLine_srt_no_nl _ _ c hc
      · exact htext c hc
      · cases hc
      · exact ih (i + 1) (fun x hx => hg x (List.mem_cons_of_mem ch hx)) l hl c hc

/-- Ends of the joined core: digit at the front, non-whitespace at the back,
and non-empty. -/
theorem joinCore_ends (cs : List Chunk) :
    ∀ i : ℕ, cs ≠ [] → (∀ ch ∈ cs, goodCue ch) →
      (∀ c, (joinWith '\n' (srtCoreLines i cs)).head? = some c → pyIsSpace c = false) ∧
      (∀ c, (joinWith '\n' (srtCoreLines i cs)).getLast? = some c → pyIsSpace c = false) ∧
      joinWith '\n' (srtCoreLines i cs) ≠ [] := by
  induction cs with
  | nil => intro i h; exact absurd rfl h
  | cons ch rest ih =>
    intro i _ hg
    have hch := hg ch (List.mem_cons_self _ _)
    obtain ⟨htne, _, htlast⟩ := goodTextB_spec hch.2.2
    obtain ⟨ci, hci, hcid⟩ := natChars_head_digit i
    rcases rest with _ | ⟨ch2, rest'⟩
    · have hjoin : joinWith '\n' (srtCoreLines i [ch]) =
          natChars i ++ '\n' :: (tsLine "srt" ch.start_time ch.end_time ++
            '\n' :: ch.text.data) := rfl
      rw [hjoin]
      refine ⟨?_, ?_, by simp [natChars_ne_nil i]⟩
      · intro c hc
        rw [head?_append_left _ _ (natChars_ne_nil i), hci] at hc
        have : ci = c := by simpa using hc
        subst this
        exact isDigit_not_space hcid
      · intro c hc
        rw [getLast?_append_right _ _ (by simp),
          getLast?_cons_of_ne _ _ (by simp),
          getLast?_append_right _ _ (by simp),
          getLast?_cons_of_ne _ _ htne] at hc
        exact htlast c hc
    · obtain ⟨_, ihlast, ihne⟩ :=
        ih (i + 1) (by simp) (fun x hx => hg x (List.mem_cons_of_mem ch hx))
      have hjoin : joinWith '\n' (srtCoreLines i (ch :: ch2 :: rest')) =
          natChars i ++ '\n' :: (tsLine "srt" ch.start_time ch.end_time ++
            '\n' :: (ch.text.data ++ '\n' :: ([] ++
              '\n' :: joinWith '\n' (srtCoreLines (i + 1) (ch2 :: rest'))))) := by
        have hrw : srtCoreLines i (ch :: ch2 :: rest') =
            [natChars i, tsLine "srt" ch.start_time ch.end_time, ch.text.data] ++
              [[]] ++ srtCoreLines (i + 1) (ch2 :: rest') := rfl
        rw [hrw]
        rcases hcc : srtCoreLines (i + 1) (ch2 :: rest') with _ | ⟨m, ms⟩
        · exact absurd (by rw [hcc]; rfl :
            joinWith '\n' (srtCoreLines (i + 1) (ch2 :: rest')) = []) ihne
        · rfl
      rw [hjoin]
      refine ⟨?_, ?_, by simp [natChars_ne_nil i]⟩
      · intro c hc
        rw [head?_append_left _ _ (natChars_ne_nil i), hci] at hc
        have : ci = c := by simpa using hc
        subst this
        exact isDigit_not_space hcid
      · intro c hc
        rw [getLast?_append_right _ _ (by simp),
          getLast?_cons_of_ne _ _ (by simp),
          getLast?_append_right _ _ (by simp),
          getLast?_cons_of_ne _ _ (by simp),
          getLast?_append_right _ _ (by simp),
          getLast?_cons_of_ne _ _ (by simp),
          List.nil_append,
          getLast?_cons_of_ne _ _ ihne] at hc
        exact ihlast c hc

theorem srtCoreLines_ne_nil (cs : List Chunk) (i : ℕ) (h : cs ≠ []) :
    srtCoreLines i cs ≠ [] := by
  rcases cs with _ | ⟨ch, rest⟩
  · exact absurd rfl h
  · rcases rest with _ | ⟨ch2, rest'⟩
    · simp [srtCoreLines]
    · have hrw : srtCoreLines i (ch :: ch2 :: rest') =
          [natChars i, tsLine "srt" ch.start_time ch.end_time, ch.text.data] ++
            [[]] ++ srtCoreLines (i + 1) (ch2 :: rest') := rfl
      rw [hrw]
      simp

/-- None of the three content lines of a good cue is whitespace-only. -/
theorem chunkLines_not_ws (i : ℕ) (ch : Chunk) (h : goodCue ch) :
    ∀ l ∈ [natChars i, tsLine "srt" ch.start_time ch.end_time, ch.text.data],
      isWsOnly l = false := by
  obtain ⟨htne, _, htlast⟩ := goodTextB_spec h.2.2
  intro l hl
  rcases List.mem_cons.mp hl with rfl | hl
  · obtain ⟨ci, hci, hcid⟩ := natChars_head_digit i
    exact isWsOnly_false_of_mem (List.mem_of_mem_head? hci) (isDigit_not_space hcid)
  · rcases List.mem_cons.mp hl with rfl | hl
    · obtain ⟨ci, hci, hcid⟩ := tsLine_srt_head_digit ch.start_time ch.end_time
      exact isWsOnly_false_of_mem (List.mem_of_mem_head? hci) (isDigit_not_space hcid)
    · rcases List.mem_cons.mp hl with rfl | hl
      · rcases hg : ch.text.data.getLast? with _ | z
        · exact absurd (List.getLast?_eq_none_iff.mp hg) htne
        · have hzmem : z ∈ ch.text.data := by
            obtain ⟨hzne, hz⟩ := List.mem_getLast?_eq_getLast (l := ch.text.data) hg
            rw [hz]
            exact List.getLast_mem hzne
          exact isWsOnly_false_of_mem hzmem (htlast z hg)
      · cases hl

/-- Splitting the core lines on whitespace-only lines and dropping empty
groups yields exactly one three-line group per chunk. -/
theorem splitBy_srtCoreLines (cs : List Chunk) :
    ∀ i : ℕ, cs ≠ [] → (∀ ch ∈ cs, goodCue ch) →
      (splitBy isWsOnly (srtCoreLines i cs)).filter (fun g => !g.isEmpty) =
        srtGroups i cs := by
  induction cs with
  | nil => intro i h; exact absurd rfl h
  | cons ch rest ih =>
    intro i _ hg
    have hch := hg ch (List.mem_cons_self _ _)
    have hws := chunkLines_not_ws i ch hch
    rcases rest with _ | ⟨ch2, rest'⟩
    · rw [show srtCoreLines i [ch] =
          [natChars i, tsLine "srt" ch.start_time ch.end_time, ch.text.data] from rfl,
        splitBy_no_sep isWsOnly _ hws]
      rfl
    · have hcore : srtCoreLines i (ch :: ch2 :: rest') =
          [natChars i, tsLine "srt" ch.start_time ch.end_time, ch.text.data] ++
            [] :: srtCoreLines (i + 1) (ch2 :: rest') := rfl
      rw [hcore,
        splitBy_append_sep isWsOnly (srtCoreLines (i + 1) (ch2 :: rest')) _ [] hws rfl,
        List.filter_cons_of_pos (by simp),
        ih (i + 1) (by simp) (fun x hx => hg x (List.mem_cons_of_mem ch hx))]
      rfl

/-- Each three-line group parses back to exactly its cue. -/
theorem optMapM_srtGroups (cs : List Chunk) :
    ∀ i : ℕ, (∀ ch ∈ cs, goodCue ch) →
      optMapM parseBlockSrt (srtGroups i cs) =
        some (cs.map fun ch => [(⟨ch.start_time, ch.end_time, ch.text⟩ : SubEntry)]) := by
  induction cs with
  | nil => intro i _; rfl
  | cons ch rest ih =>
    intro i hg
    have hch := hg ch (List.mem_cons_self _ _)
    obtain ⟨ka, hka, hsa⟩ := hch.1
    obtain ⟨kb, hkb, hsb⟩ := hch.2.1
    have hpb : parseBlockSrt [natChars i, tsLine "srt" ch.start_time ch.end_time,
        ch.text.data] = some [⟨ch.start_time, ch.end_time, ch.text⟩] := by
      rw [hsa, hsb]
      exact parseBlockSrt_entry i ka kb hka hkb ch.text hch.2.2
    rw [srtGroups, optMapM, hpb,
      ih (i + 1) (fun x hx => hg x (List.mem_cons_of_mem ch hx))]
    rfl

theorem flattenL_entry_map (cs : List Chunk) :
    flattenL (cs.map fun ch => [(⟨ch.start_time, ch.end_time, ch.text⟩ : SubEntry)]) =
      cs.map fun ch => (⟨ch.start_time, ch.end_time, ch.text⟩ : SubEntry) := by
  induction cs with
  | nil => rfl
  | cons x xs ih =>
    rw [List.map_cons, flattenL, ih, List.map_cons]
    rfl

/-- The rendered transcription-only SRT content parses back into exactly one
three-line block per chunk. -/
theorem contentBlocks_srt (cs : List Chunk) (hne : cs ≠ [])
    (hg : ∀ ch ∈ cs, goodCue ch) :
    contentBlocks (joinWith '\n' (srtChunkEntries 1 cs)) = srtGroups 1 cs := by
  obtain ⟨hhead, hlast, hjne⟩ := joinCore_ends cs 1 hne hg
  rw [srtChunkEntries_eq_core cs 1 hne hg,
    joinWith_append_nil '\n' _ (srtCoreLines_ne_nil cs 1 hne),
    contentBlocks,
    pyStripChars_drop_nl _ hhead hlast hjne,
    splitOnChar_joinWith '\n' _ (srtCoreLines_ne_nil cs 1 hne)
      (srtCoreLines_no_nl cs 1 hg),
    splitBy_srtCoreLines cs 1 hne hg]

unseal Rat.mul Rat.add Rat.sub Rat.inv in
/-- C4 counterexample: the round trip does NOT hold for every non-empty cue
sequence. (1) A cue ending at 86400 s is serialised with the timestamp wrapped
modulo one day, so it parses back with end time `0 ≠ 86400`: the times do not
agree to millisecond precision. (2) A cue whose text is the single space
`" "` is skipped by the serialiser (`if chunk['text'].strip()`), so parsing
returns no cue at all and its text is not reproduced. -/
theorem claims_C4_counterexample :
    (parse_srt (generate_srt_captions "" "" (fun s => s)
        [⟨0, 86400, "Hello"⟩]) = some [⟨0, 0, "Hello"⟩] ∧ (86400 : ℚ) ≠ 0) ∧
    (parse_srt (generate_srt_captions "" "" (fun s => s)
        [⟨0, 1, " "⟩]) = some []) := by
  refine ⟨⟨by decide, by norm_num⟩, by decide⟩

/-- C4 (amended): on the transcription-only SRT path, for every non-empty
chunk list whose cues have whole-millisecond times below 24 hours and text
that is non-empty, newline-free and does not end in whitespace, serialising
with `generate_srt_captions` and parsing back with `parse_srt` reproduces
every cue exactly — times and text. -/
theorem claims_C4_srt_roundtrip (tl : String → String) (cs : List Chunk)
    (hne : cs ≠ []) (hg : ∀ ch ∈ cs, goodCue ch) :
    parse_srt (generate_srt_captions "" "" tl cs) =
      some (cs.map fun ch => ⟨ch.start_time, ch.end_time, ch.text⟩) := by
  have hbr : generate_srt_captions "" "" tl cs =
      String.mk (joinWith '\n' (srtChunkEntries 1 cs)) := by
    rw [generate_srt_captions, if_neg (by simp), if_neg (by simp)]
  rw [hbr, parse_srt,
    show (String.mk (joinWith '\n' (srtChunkEntries 1 cs))).data =
      joinWith '\n' (srtChunkEntries 1 cs) from rfl,
    contentBlocks_srt cs hne hg, optMapM_srtGroups cs 1 hg]
  exact congrArg some (flattenL_entry_map cs)

/-- C4 witness: the round trip at the concrete good cue `⟨0, 3/2, "Hi"⟩`. -/
theorem claims_C4_witness :
    parse_srt (generate_srt_captions "" "" (fun s => s) [⟨0, 3/2, "Hi"⟩]) =
      some [⟨0, 3/2, "Hi"⟩] := by
  have hgc : ∀ ch ∈ [(⟨0, 3/2, "Hi"⟩ : Chunk)], goodCue ch := by
    intro ch hch
    rw [List.mem_singleton] at hch
    subst hch
    exact ⟨⟨0, by norm_num, by norm_num⟩, ⟨1500, by norm_num, by norm_num⟩, by decide⟩
  exact claims_C4_srt_roundtrip (fun s => s) [⟨0, 3/2, "Hi"⟩] (by simp) hgc

end KinyCap
